import Mathlib

/-!
Verification development for the pangraph `marginalize` command.

The repository source under scrutiny contains the command driver
`marginalize_run` (file `commands/marginalize/marginalize_run.rs`); the
marginalization algorithm itself lives elsewhere in the repository and is
specified in the design document (§3 data model, §4.2 algorithm).  The
definitions below therefore come in two groups:

* a shallow embedding of the data model and of the marginalization
  algorithm, modelled from the specification (doc comments marked
  `Modelled from the spec:`), and
* a shallow embedding of the `marginalize_run` driver, translated from the
  Rust source file.

Genome sequences are lists of naturals (nucleotide codes); the complement
of a code is modelled as xor with 1, an involution, so that
reverse-complement is an involution on sequences.
-/

namespace Pangraph

/-- A genome sequence: a list of nucleotide codes. -/
abbrev Seq := List Nat

/-- Nucleotide complement, an involution on codes (A/T and C/G pair up as
xor with 1 under the encoding A=0, T=1, C=2, G=3). -/
def comp (n : Nat) : Nat := n ^^^ 1

/-- Reverse complement of a sequence. -/
def rc (s : Seq) : Seq := (s.map comp).reverse

/-- Orient a sequence: identity on the forward strand, reverse complement
on the reverse strand. -/
def orient (strand : Bool) (s : Seq) : Seq := if strand then s else rc s

/-- Modelled from the spec: one entry of a path — a traversal of one block
occurrence.  The spec (§3 Block) keeps, for each strain occurrence, an
alignment record that "must deterministically regenerate that occurrence's
exact subsequence"; the record is modelled by the subsequence it
regenerates (`seq`, given in the block's forward orientation), attached to
the traversal occurrence, which also makes the required multiplicity
explicit. -/
structure PathEntry where
  block : Nat
  strand : Bool
  seq : Seq
deriving DecidableEq, Repr

/-- Modelled from the spec: a path — an ordered traversal of blocks with
strand orientation, with a circularity flag (§3 Path, §9). -/
structure Path where
  entries : List PathEntry
  circular : Bool
deriving DecidableEq, Repr

/-- Modelled from the spec: a block — stable identifier plus consensus
sequence (§3 Block); the per-strain records are carried by the path
entries, see `PathEntry`. -/
structure Block where
  id : Nat
  consensus : Seq
deriving DecidableEq, Repr

/-- Modelled from the spec: a graph — blocks plus strain-named paths
(§3 Graph). -/
structure Graph where
  blocks : List Block
  paths : List (String × Path)
deriving DecidableEq, Repr

/-- The block identifiers of a graph. -/
def blockIds (g : Graph) : List Nat := g.blocks.map (·.id)

/-- The strain names of a graph. -/
def strainsOf (g : Graph) : List String := g.paths.map (·.1)

/-- Contribution of one path entry to the reconstructed genome. -/
def contrib (e : PathEntry) : Seq := orient e.strand e.seq

/-- Reconstruction of a list of path entries: concatenate each occurrence's
oriented subsequence. -/
def reconEntries (l : List PathEntry) : Seq := (l.map contrib).flatten

/-- Reconstruction of a path (§3 Path invariant: this must yield the
strain's full genome in original coordinate order). -/
def reconPath (p : Path) : Seq := reconEntries p.entries

/-- Look up the path of a strain. -/
def lookupPath (g : Graph) (s : String) : Option Path :=
  (g.paths.find? fun q => q.1 = s).map (·.2)

/-- Modelled from the spec: the consistency checker's reconstruction of a
strain's genome from the graph (§4.3). -/
def reconstruct (g : Graph) (s : String) : Option Seq :=
  (lookupPath g s).map reconPath

/-- Modelled from the spec: the error taxonomy of §7. -/
inductive MarginalizeError where
  | InvalidStrainSet
  | MalformedGraph
  | MergeConflict
deriving DecidableEq, Repr

/-- Modelled from the spec: S must be a non-empty subset of G's strain
names (§4.2). -/
def validStrainSet (g : Graph) (S : List String) : Bool :=
  !S.isEmpty && S.all fun s => (strainsOf g).contains s

/-- Does block `b` occur in path `p`? -/
def occursIn (b : Nat) (p : Path) : Bool := p.entries.any fun e => e.block == b

/-- Modelled from the spec: the blocks of `g` touched by some strain in
`S` (§4.2 step 3 drops the rest). -/
def touchedBlocks (g : Graph) (S : List String) : List Block :=
  g.blocks.filter fun b =>
    g.paths.any fun q => S.contains q.1 && occursIn b.id q.2

/-- Modelled from the spec: restriction of the graph to the strains of
`S` — keep exactly the paths of `S` and the blocks touched by `S`
(§4.2 step 1 and the drop rule). -/
def restrict (g : Graph) (S : List String) : Graph :=
  { blocks := touchedBlocks g S
    paths := g.paths.filter fun q => S.contains q.1 }

/-- Successor index of position `i` in path `p`: the next position, wrapping
to 0 on a circular path (§4.2 step 6: the seam is not privileged). -/
def cycSucc (p : Path) (i : Nat) : Option Nat :=
  if i + 1 < p.entries.length then some (i + 1)
  else if p.circular then some 0 else none

/-- Predecessor index of position `i` in path `p`, wrapping on circular
paths. -/
def cycPred (p : Path) (i : Nat) : Option Nat :=
  if i = 0 then (if p.circular then some (p.entries.length - 1) else none)
  else some (i - 1)

/-- Modelled from the spec: the universal half of the merge condition for
one path — every occurrence of `b1` has strand `s1` and is immediately
followed by `b2` with strand `s2` (§4.2 step 2). -/
def followsOK (b1 : Nat) (s1 : Bool) (b2 : Nat) (s2 : Bool) (p : Path) : Bool :=
  (List.range p.entries.length).all fun i =>
    match p.entries[i]? with
    | some e =>
      if e.block = b1 then
        (e.strand == s1) &&
          (match (cycSucc p i).bind (fun j => p.entries[j]?) with
           | some e2 => e2.block == b2 && e2.strand == s2
           | none => false)
      else true
    | none => true

/-- Modelled from the spec: the exclusive half of the merge condition for
one path — every occurrence of `b2` has strand `s2` and is immediately
preceded by `b1` with strand `s1` (§4.2 step 2). -/
def precededOK (b1 : Nat) (s1 : Bool) (b2 : Nat) (s2 : Bool) (p : Path) : Bool :=
  (List.range p.entries.length).all fun i =>
    match p.entries[i]? with
    | some e =>
      if e.block = b2 then
        (e.strand == s2) &&
          (match (cycPred p i).bind (fun j => p.entries[j]?) with
           | some e2 => e2.block == b1 && e2.strand == s1
           | none => false)
      else true
    | none => true

/-- Modelled from the spec: the universal-and-exclusive adjacency
condition of §4.2 step 2 — `b1` followed by `b2` (with the given strands)
in every occurrence across all retained paths, and never otherwise. -/
def mergeableB (g : Graph) (b1 : Nat) (s1 : Bool) (b2 : Nat) (s2 : Bool) : Bool :=
  (b1 != b2) && (g.paths.any fun q => occursIn b1 q.2) &&
  (g.paths.all fun q => followsOK b1 s1 b2 s2 q.2 && precededOK b1 s1 b2 s2 q.2)

/-- Index of the first occurrence of block `b` in a list of entries. -/
def firstIdxFrom (b : Nat) : List PathEntry → Option Nat
  | [] => none
  | e :: rest => if e.block = b then some 0 else (firstIdxFrom b rest).map (· + 1)

/-- Strand of the first occurrence of `b1` in one path, together with the
block and strand that follow it, if any. -/
def pathOccSucc (b1 : Nat) (p : Path) : Option (Bool × Nat × Bool) :=
  (firstIdxFrom b1 p.entries).bind fun i =>
    (p.entries[i]?).bind fun e =>
      ((cycSucc p i).bind (fun j => p.entries[j]?)).map fun e2 =>
        (e.strand, e2.block, e2.strand)

/-- Strand of the first occurrence of `b1` in the graph, together with the
block and strand that follow it, if any. -/
def firstOccSucc (g : Graph) (b1 : Nat) : Option (Bool × Nat × Bool) :=
  g.paths.findSome? fun q => pathOccSucc b1 q.2

/-- A merge candidate: blocks `b1` followed by `b2` with the respective
strands. -/
structure Cand where
  b1 : Nat
  s1 : Bool
  b2 : Nat
  s2 : Bool
deriving DecidableEq, Repr

/-- The only possible merge candidate led by block `b1` (its follower is
forced by `b1`'s first occurrence), if the §4.2 step 2 condition holds. -/
def candFor (g : Graph) (b1 : Nat) : Option Cand :=
  (firstOccSucc g b1).bind fun v =>
    if mergeableB g b1 v.1 v.2.1 v.2.2 then some ⟨b1, v.1, v.2.1, v.2.2⟩
    else none

/-- Insert into a sorted list of naturals. -/
def insertSorted (x : Nat) : List Nat → List Nat
  | [] => [x]
  | y :: ys => if x ≤ y then x :: y :: ys else y :: insertSorted x ys

/-- Insertion sort for lists of naturals. -/
def sortIds (l : List Nat) : List Nat := l.foldr insertSorted []

/-- Modelled from the spec: deterministic candidate search — iterate block
identifiers in ascending original-identifier order (§4.2 step 3) and
return the first merge candidate. -/
def findMergeable (g : Graph) : Option Cand :=
  (sortIds (blockIds g)).findSome? (candFor g)

/-- Modelled from the spec: forward-strand content of the block obtained by
merging an occurrence pair, canonical per §4.2 step 5 (when both
constituents are reversed the forward consensus is b2 then b1). -/
def mergedBlockSeq (s1 : Bool) (x1 : Seq) (s2 : Bool) (x2 : Seq) : Seq :=
  orient s1 (orient s1 x1 ++ orient s2 x2)

/-- Modelled from the spec: a fresh deterministic block identifier — the
ordinal right above every identifier currently in the graph (§4.2 step 4,
§5: a deterministic numbering pass, never random). -/
def freshId (g : Graph) : Nat :=
  (blockIds g).foldr max 0 + 1

/-- Rotate a list right by one (last element to the front). -/
def rotR (l : List PathEntry) : List PathEntry :=
  match l.getLast? with
  | none => []
  | some e => e :: l.dropLast

/-- Rewrite a list of entries for the merge of `b1` followed by `b2` into
the fresh block `m`: every occurrence of `b1` is fused with the entry
right after it. -/
def rewriteEntries (m b1 : Nat) : List PathEntry → List PathEntry
  | [] => []
  | e :: rest =>
    if e.block = b1 then
      match rest with
      | e2 :: rest2 =>
        ⟨m, e.strand, mergedBlockSeq e.strand e.seq e2.strand e2.seq⟩ ::
          rewriteEntries m b1 rest2
      | [] => [e]
    else e :: rewriteEntries m b1 rest

/-- Does the list end in an occurrence of block `b1`? -/
def lastIs (b1 : Nat) (l : List PathEntry) : Bool :=
  match l.getLast? with
  | some e => e.block == b1
  | none => false

/-- Modelled from the spec: when the merged adjacency wraps around the seam
of a circular path (the path ends in `b1`), the path is rotated so the
pair becomes interior; the seam is treated like any interior adjacency
(§4.2 step 6). -/
def rotateIfWraps (b1 : Nat) (p : Path) : Path :=
  if p.circular && lastIs b1 p.entries then
    { p with entries := rotR p.entries }
  else p

/-- Modelled from the spec: rewrite one path for the merge of `b1` into
`b2` under fresh identifier `m` (§4.2 step 4: paths are rewritten to the
new block graph; circular flag kept). -/
def mergePath (m b1 : Nat) (p : Path) : Path :=
  { entries := rewriteEntries m b1 (rotateIfWraps b1 p).entries
    circular := p.circular }

/-- Look up a block by identifier. -/
def lookupBlock (g : Graph) (i : Nat) : Block :=
  (g.blocks.find? fun b => b.id = i).getD ⟨i, []⟩

/-- Modelled from the spec: one merge of a candidate adjacency — the two
constituent blocks are replaced by a single coalesced block with a fresh
identifier whose consensus is the concatenation per §4.2 step 5, and every
path is rewritten (§4.2 steps 3-5). -/
def mergeStep (g : Graph) (c : Cand) : Graph :=
  let m := freshId g
  let M : Block :=
    { id := m
      consensus :=
        mergedBlockSeq c.s1 (lookupBlock g c.b1).consensus
          c.s2 (lookupBlock g c.b2).consensus }
  { blocks := (g.blocks.filter fun b => b.id ≠ c.b1 && b.id ≠ c.b2) ++ [M]
    paths := g.paths.map fun q => (q.1, mergePath m c.b1 q.2) }

/-- Modelled from the spec: the chain-contraction loop — repeatedly merge
the first candidate pair until none remains (§4.2 step 3); each merge
strictly reduces the number of blocks, so the number of blocks is enough
fuel. -/
def mergeLoop : Nat → Graph → Graph
  | 0, g => g
  | fuel + 1, g =>
    match findMergeable g with
    | none => g
    | some c => mergeLoop fuel (mergeStep g c)

/-- Modelled from the spec: the marginalization algorithm of §4.2 — the
repository's marginalizer implementation is not part of the visible
source, so it is modelled from the specification: validate the strain
set, restrict the graph to it, then contract every universal-and-exclusive
adjacency. -/
def marginalize (g : Graph) (S : List String) : Except MarginalizeError Graph :=
  if validStrainSet g S then
    let g0 := restrict g S
    Except.ok (mergeLoop g0.blocks.length g0)
  else
    Except.error MarginalizeError.InvalidStrainSet

/-- The §4.2 step 2 condition stated over the whole candidate space: no
adjacency of the graph is universal-and-exclusive. -/
def NoMergeableAdj (g : Graph) : Prop :=
  ∀ b1 s1 b2 s2, mergeableB g b1 s1 b2 s2 = false

/-- Modelled from the spec: the §3 structural invariants of a well-formed
graph — unique block identifiers, unique strain names, and no dangling
block references from paths (§4.1 guarantees callers only see such
graphs). -/
structure Inv (g : Graph) : Prop where
  idsNodup : (blockIds g).Nodup
  namesNodup : (strainsOf g).Nodup
  entriesWf : ∀ q ∈ g.paths, ∀ e ∈ q.2.entries, e.block ∈ blockIds g

/-- How a path of the output relates to the corresponding input path:
same circular flag, and the reconstruction is a rotation of the input
reconstruction, with rotation amount 0 whenever the path is linear. -/
def PathRel (p q : Path) : Prop :=
  q.circular = p.circular ∧
    ∃ k, reconPath q = (reconPath p).rotate k ∧ (p.circular = false → k = 0)

/-- Pointwise relation between the path lists of two graphs: same strains
in the same order, with `PathRel` paths. -/
def GraphRel (ga gb : Graph) : Prop :=
  List.Forall₂ (fun a b => a.1 = b.1 ∧ PathRel a.2 b.2) ga.paths gb.paths

/-- Index-level statement on a plain list: every occurrence of `b1` is
immediately followed (inside the list) by an occurrence of `b2`. -/
def FollowedInList (b1 b2 : Nat) (l : List PathEntry) : Prop :=
  ∀ i e, l[i]? = some e → e.block = b1 →
    ∃ e2, l[i + 1]? = some e2 ∧ e2.block = b2

/-- Index-level statement on a plain list: every occurrence of `b2` is
immediately preceded (inside the list) by an occurrence of `b1`. -/
def PrecededInList (b1 b2 : Nat) (l : List PathEntry) : Prop :=
  ∀ i e, l[i]? = some e → e.block = b2 →
    ∃ j e2, i = j + 1 ∧ l[j]? = some e2 ∧ e2.block = b1

/-- Propositional form of `followsOK`. -/
def Follows (b1 : Nat) (s1 : Bool) (b2 : Nat) (s2 : Bool) (p : Path) : Prop :=
  ∀ i e, p.entries[i]? = some e → e.block = b1 →
    e.strand = s1 ∧ ∃ j e2, cycSucc p i = some j ∧ p.entries[j]? = some e2 ∧
      e2.block = b2 ∧ e2.strand = s2

/-- Propositional form of `precededOK`. -/
def Preceded (b1 : Nat) (s1 : Bool) (b2 : Nat) (s2 : Bool) (p : Path) : Prop :=
  ∀ i e, p.entries[i]? = some e → e.block = b2 →
    e.strand = s2 ∧ ∃ j e2, cycPred p i = some j ∧ p.entries[j]? = some e2 ∧
      e2.block = b1 ∧ e2.strand = s1

/-! ### The `marginalize_run` driver, translated from the Rust source -/

/-- The arguments of the marginalize command
(`marginalize_args::PangraphMarginalizeArgs` as destructured by
`marginalize_run`). -/
structure PangraphMarginalizeArgs where
  input_aln : String
  output_path : Option String
  strains : List String
  seed : Option Nat
deriving DecidableEq, Repr

/-- The deserialized pangenome alignment JSON
(`io::pangraph_json::PangraphJson`), modelled as the graph it encodes. -/
structure PangraphJson where
  graph : Graph
deriving DecidableEq, Repr

/-- The seeded random number generator of `utils::random`, modelled by its
deterministic internal state derived from the optional seed; the driver
creates it and never uses it. -/
def get_random_number_generator (seed : Option Nat) : Nat :=
  seed.getD 42

/-- Translated from `commands/marginalize/marginalize_run.rs`: destructure
the arguments, create the RNG from the seed, load the input JSON
(propagating its error with `?`), and return `Ok(())`.  The filesystem is
passed in as the `from_path` oracle; the second component records the
files the driver writes — it writes none. -/
def marginalize_run (from_path : String → Except String PangraphJson)
    (args : PangraphMarginalizeArgs) : Except String Unit × List (String × Graph) :=
  let _rng := get_random_number_generator args.seed
  match from_path args.input_aln with
  | Except.ok _msa_json => (Except.ok (), [])
  | Except.error e => (Except.error e, [])

/-- Modelled from the spec: the marginalizer as seen from the seeded
command — §9 requires that the core "must not consume or depend on any
randomness", so the seed is not an input of the algorithm at all. -/
def marginalizeSeeded (seed : Option Nat) (g : Graph) (S : List String) :
    Except MarginalizeError Graph :=
  marginalize g S

/-- Modelled from the spec: the marginalize call in state-passing form —
the Rust call takes the graph by shared reference, and the second
component is the state of the input graph when the call returns (§3
lifecycle: the input is never mutated, the output is a fresh graph). -/
def marginalizeCall (g : Graph) (S : List String) :
    Except MarginalizeError Graph × Graph :=
  (marginalize g S, g)

/-! ### Concrete graphs used as test vectors -/

/-- The spec §8 scenario: strains A and B share blocks 1,2,3 in identical
order and strand, strain C touches only block 2. -/
def gABC : Graph :=
  { blocks := [⟨1, [0]⟩, ⟨2, [1]⟩, ⟨3, [2]⟩]
    paths := [("A", ⟨[⟨1, true, [0]⟩, ⟨2, true, [1]⟩, ⟨3, true, [2]⟩], false⟩),
              ("B", ⟨[⟨1, true, [0, 0]⟩, ⟨2, true, [1]⟩, ⟨3, true, [2, 2]⟩], false⟩),
              ("C", ⟨[⟨2, true, [1, 1]⟩], false⟩)] }

/-- A circular single-strain graph whose stored path starts at block 2:
the only universal-and-exclusive adjacency (block 1 followed by block 2)
wraps around the seam, so merging it rotates the reconstruction. -/
def gCirc : Graph :=
  { blocks := [⟨1, [0]⟩, ⟨2, [2]⟩]
    paths := [("A", ⟨[⟨2, true, [2]⟩, ⟨1, true, [0]⟩], true⟩)] }

/-- A single-strain graph whose path visits block 1 twice with different
followers: no adjacency is universal, so nothing can merge. -/
def gSelf : Graph :=
  { blocks := [⟨1, [0]⟩, ⟨2, [1]⟩, ⟨3, [2]⟩]
    paths := [("A", ⟨[⟨1, true, [0]⟩, ⟨2, true, [1]⟩, ⟨1, true, [3]⟩, ⟨3, true, [2]⟩], false⟩)] }

/-- A single-strain linear graph visiting three distinct blocks once. -/
def gLin : Graph :=
  { blocks := [⟨1, [0]⟩, ⟨2, [1]⟩, ⟨3, [2]⟩]
    paths := [("A", ⟨[⟨1, true, [0]⟩, ⟨2, true, [1]⟩, ⟨3, true, [2]⟩], false⟩)] }


/-- The output of marginalizing `gABC` to strains A and B: the chain 1,2,3
coalesces into a single fresh block. -/
def gABCOut : Graph :=
  { blocks := [⟨5, [0, 1, 2]⟩]
    paths := [("A", ⟨[⟨5, true, [0, 1, 2]⟩], false⟩),
              ("B", ⟨[⟨5, true, [0, 0, 1, 2, 2]⟩], false⟩)] }

/-- The output of marginalizing `gCirc` to its only strain: one block whose
content starts at block 1 although the stored path started at block 2. -/
def gCircOut : Graph :=
  { blocks := [⟨3, [0, 2]⟩]
    paths := [("A", ⟨[⟨3, true, [0, 2]⟩], true⟩)] }

/-- The output of marginalizing `gLin` to its only strain. -/
def gLinOut : Graph :=
  { blocks := [⟨5, [0, 1, 2]⟩]
    paths := [("A", ⟨[⟨5, true, [0, 1, 2]⟩], false⟩)] }


/-- The single path of `gLin`. -/
def gLinPath : Path :=
  ⟨[⟨1, true, [0]⟩, ⟨2, true, [1]⟩, ⟨3, true, [2]⟩], false⟩

/-! ### The chain grammar consumed by the merge rewrite -/

/-- Shape of an entry list in which every occurrence of `b1` is immediately
followed by an occurrence of `b2`, and `b2` occurs nowhere else: the
grammar guaranteed by the universal-and-exclusive adjacency condition. -/
inductive Chain (b1 b2 : Nat) : List PathEntry → Prop where
  | nil : Chain b1 b2 []
  | skip (e : PathEntry) (l : List PathEntry) :
      e.block ≠ b1 → e.block ≠ b2 → Chain b1 b2 l → Chain b1 b2 (e :: l)
  | pair (e e2 : PathEntry) (l : List PathEntry) :
      e.block = b1 → e2.block = b2 → Chain b1 b2 l → Chain b1 b2 (e :: e2 :: l)

/-! ### Reverse complement and orientation -/

theorem comp_comp (n : Nat) : comp (comp n) = n := by
  simp [comp, Nat.xor_assoc]

theorem rc_rc (s : Seq) : rc (rc s) = s := by
  unfold rc
  rw [List.map_reverse, List.reverse_reverse, List.map_map]
  have h : comp ∘ comp = id := funext comp_comp
  rw [h, List.map_id]

theorem orient_orient (b : Bool) (s : Seq) : orient b (orient b s) = s := by
  cases b <;> simp [orient, rc_rc]

theorem mergedBlockSeq_orient (s1 : Bool) (x1 : Seq) (s2 : Bool) (x2 : Seq) :
    orient s1 (mergedBlockSeq s1 x1 s2 x2) = orient s1 x1 ++ orient s2 x2 := by
  simp [mergedBlockSeq, orient_orient]

theorem contrib_merged (m : Nat) (s1 : Bool) (x1 : Seq) (s2 : Bool) (x2 : Seq) :
    contrib ⟨m, s1, mergedBlockSeq s1 x1 s2 x2⟩ = orient s1 x1 ++ orient s2 x2 := by
  simp [contrib, mergedBlockSeq_orient]

/-! ### Reconstruction through path rewriting -/

theorem reconEntries_nil : reconEntries [] = [] := rfl

theorem reconEntries_cons (e : PathEntry) (l : List PathEntry) :
    reconEntries (e :: l) = contrib e ++ reconEntries l := by
  simp [reconEntries]

theorem reconEntries_append (l1 l2 : List PathEntry) :
    reconEntries (l1 ++ l2) = reconEntries l1 ++ reconEntries l2 := by
  simp [reconEntries]


/-! ### Equations for the merge rewrite -/

theorem rewriteEntries_nil (m b1 : Nat) : rewriteEntries m b1 [] = [] := rfl

theorem rewriteEntries_pair (m b1 : Nat) (e e2 : PathEntry) (l : List PathEntry)
    (h : e.block = b1) :
    rewriteEntries m b1 (e :: e2 :: l) =
      ⟨m, e.strand, mergedBlockSeq e.strand e.seq e2.strand e2.seq⟩ ::
        rewriteEntries m b1 l := by
  simp [rewriteEntries, h]

theorem rewriteEntries_single (m b1 : Nat) (e : PathEntry) (h : e.block = b1) :
    rewriteEntries m b1 [e] = [e] := by
  simp [rewriteEntries, h]

theorem rewriteEntries_skip (m b1 : Nat) (e : PathEntry) (l : List PathEntry)
    (h : e.block ≠ b1) :
    rewriteEntries m b1 (e :: l) = e :: rewriteEntries m b1 l := by
  cases l with
  | nil => simp [rewriteEntries, h]
  | cons e2 l2 => simp [rewriteEntries, h]

/-- Fusing an adjacent occurrence pair into a coalesced block never changes
what the path reconstructs: the merged record is by construction the
in-order concatenation of the two oriented constituent records. -/
theorem reconEntries_rewrite (m b1 : Nat) :
    ∀ l, reconEntries (rewriteEntries m b1 l) = reconEntries l
  | [] => by simp [rewriteEntries]
  | [e] => by
    by_cases h : e.block = b1 <;>
      simp [rewriteEntries, h]
  | e :: e2 :: rest => by
    by_cases h : e.block = b1
    · simp [rewriteEntries, h, reconEntries_cons, contrib, mergedBlockSeq_orient,
        reconEntries_rewrite m b1 rest, List.append_assoc]
    · simp [rewriteEntries, h, reconEntries_cons,
        reconEntries_rewrite m b1 (e2 :: rest)]

/-! ### Rotation of circular paths -/

theorem rotR_nil : rotR [] = [] := rfl

theorem rotR_eq_of_getLast? (l : List PathEntry) (e : PathEntry)
    (h : l.getLast? = some e) : rotR l = e :: l.dropLast := by
  simp [rotR, h]

theorem dropLast_append_last (l : List PathEntry) (e : PathEntry)
    (h : l.getLast? = some e) : l.dropLast ++ [e] = l :=
  List.dropLast_append_getLast? e (by simp [h])

/-- Rotating a circular path right by one rotates its reconstruction. -/
theorem reconEntries_rotR (l : List PathEntry) :
    ∃ k, reconEntries (rotR l) = (reconEntries l).rotate k := by
  cases hl : l.getLast? with
  | none =>
    refine ⟨0, ?_⟩
    have : l = [] := by cases l <;> simp_all
    simp [this, rotR_nil, List.rotate_nil]
  | some e =>
    refine ⟨(reconEntries l.dropLast).length, ?_⟩
    have hdecomp : reconEntries l = reconEntries l.dropLast ++ contrib e := by
      conv_lhs => rw [← dropLast_append_last l e hl]
      rw [reconEntries_append, reconEntries_cons, reconEntries_nil,
        List.append_nil]
    rw [rotR_eq_of_getLast? l e hl, reconEntries_cons, hdecomp,
      List.rotate_append_length_eq]


theorem rewrite_eq_of_no_b1 (m b1 : Nat) :
    ∀ l : List PathEntry, (∀ e ∈ l, e.block ≠ b1) → rewriteEntries m b1 l = l
  | [], _ => rfl
  | e :: rest, h => by
    have he : e.block ≠ b1 := h e (by simp)
    rw [rewriteEntries_skip m b1 e rest he]
    exact congrArg (e :: ·) (rewrite_eq_of_no_b1 m b1 rest fun x hx => h x (by simp [hx]))

theorem rewrite_ne_nil (m b1 : Nat) (l : List PathEntry) (h : l ≠ []) :
    rewriteEntries m b1 l ≠ [] := by
  match l with
  | [] => exact absurd rfl h
  | e :: rest =>
    by_cases hb : e.block = b1
    · match rest with
      | [] => simp [rewriteEntries_single m b1 e hb]
      | e2 :: rest2 => simp [rewriteEntries_pair m b1 e e2 rest2 hb]
    · simp [rewriteEntries_skip m b1 e rest hb]

/-- Every entry of the rewritten list is either the fresh merged block or a
surviving original entry whose block is neither constituent. -/
theorem chain_rewrite_block_mem {b1 b2 : Nat} (m : Nat) :
    ∀ {l : List PathEntry}, Chain b1 b2 l →
      ∀ x ∈ rewriteEntries m b1 l, x.block = m ∨ (x ∈ l ∧ x.block ≠ b1 ∧ x.block ≠ b2)
  | _, Chain.nil, x, hx => by simp [rewriteEntries_nil] at hx
  | _, Chain.skip e l h1 h2 hc, x, hx => by
    rw [rewriteEntries_skip m b1 e l h1] at hx
    rcases List.mem_cons.mp hx with hx | hx
    · exact Or.inr ⟨by simp [hx], by rw [hx]; exact h1, by rw [hx]; exact h2⟩
    · rcases chain_rewrite_block_mem m hc x hx with h | ⟨hmem, hb⟩
      · exact Or.inl h
      · exact Or.inr ⟨by simp [hmem], hb⟩
  | _, Chain.pair e e2 l h1 h2 hc, x, hx => by
    rw [rewriteEntries_pair m b1 e e2 l h1] at hx
    rcases List.mem_cons.mp hx with hx | hx
    · exact Or.inl (by simp [hx])
    · rcases chain_rewrite_block_mem m hc x hx with h | ⟨hmem, hb⟩
      · exact Or.inl h
      · exact Or.inr ⟨by simp [hmem], hb⟩

/-- Entries whose block is neither constituent survive the rewrite. -/
theorem chain_rewrite_mem_of {b1 b2 : Nat} (m : Nat) :
    ∀ {l : List PathEntry}, Chain b1 b2 l →
      ∀ x ∈ l, x.block ≠ b1 → x.block ≠ b2 → x ∈ rewriteEntries m b1 l
  | _, Chain.nil, x, hx, _, _ => by simp at hx
  | _, Chain.skip e l h1 _ hc, x, hx, hxb1, hxb2 => by
    rw [rewriteEntries_skip m b1 e l h1]
    rcases List.mem_cons.mp hx with hx | hx
    · simp [hx]
    · exact List.mem_cons_of_mem _ (chain_rewrite_mem_of m hc x hx hxb1 hxb2)
  | _, Chain.pair e e2 l h1 h2 hc, x, hx, hxb1, hxb2 => by
    rw [rewriteEntries_pair m b1 e e2 l h1]
    rcases List.mem_cons.mp hx with hx | hx
    · exact absurd (hx ▸ h1) hxb1
    · rcases List.mem_cons.mp hx with hx | hx
      · exact absurd (hx ▸ h2) hxb2
      · exact List.mem_cons_of_mem _ (chain_rewrite_mem_of m hc x hx hxb1 hxb2)

/-- When the merged pair occurs, the fresh block appears in the rewritten
list. -/
theorem chain_rewrite_m_mem {b1 b2 : Nat} (m : Nat) :
    ∀ {l : List PathEntry}, Chain b1 b2 l →
      (∃ e ∈ l, e.block = b1) → ∃ x ∈ rewriteEntries m b1 l, x.block = m
  | _, Chain.nil, h => by simp at h
  | _, Chain.skip e l h1 _ hc, h => by
    obtain ⟨w, hw, hwb⟩ := h
    rcases List.mem_cons.mp hw with hw | hw
    · exact absurd (hw ▸ hwb) h1
    · obtain ⟨x, hx, hxm⟩ := chain_rewrite_m_mem m hc ⟨w, hw, hwb⟩
      exact ⟨x, by
        rw [rewriteEntries_skip m b1 e l h1]
        exact List.mem_cons_of_mem _ hx, hxm⟩
  | _, Chain.pair e e2 l h1 _ _, _ => by
    rw [rewriteEntries_pair m b1 e e2 l h1]
    exact ⟨⟨m, e.strand, mergedBlockSeq e.strand e.seq e2.strand e2.seq⟩,
      List.mem_cons_self _ _, rfl⟩

/-- Rewriting never lengthens the list. -/
theorem chain_rewrite_length_le {b1 b2 : Nat} (m : Nat) :
    ∀ {l : List PathEntry}, Chain b1 b2 l →
      (rewriteEntries m b1 l).length ≤ l.length
  | _, Chain.nil => by simp [rewriteEntries_nil]
  | _, Chain.skip e l h1 _ hc => by
    rw [rewriteEntries_skip m b1 e l h1]
    simpa using Nat.succ_le_succ (chain_rewrite_length_le m hc)
  | _, Chain.pair e e2 l h1 _ hc => by
    rw [rewriteEntries_pair m b1 e e2 l h1]
    have := chain_rewrite_length_le m hc
    simp only [List.length_cons]
    omega

/-- Rewriting strictly shortens the list when the pair occurs. -/
theorem chain_rewrite_length_lt {b1 b2 : Nat} (m : Nat) :
    ∀ {l : List PathEntry}, Chain b1 b2 l → (∃ e ∈ l, e.block = b1) →
      (rewriteEntries m b1 l).length < l.length
  | _, Chain.nil, h => by simp at h
  | _, Chain.skip e l h1 _ hc, h => by
    obtain ⟨w, hw, hwb⟩ := h
    rcases List.mem_cons.mp hw with hw | hw
    · exact absurd (hw ▸ hwb) h1
    · rw [rewriteEntries_skip m b1 e l h1]
      simpa using Nat.succ_lt_succ (chain_rewrite_length_lt m hc ⟨w, hw, hwb⟩)
  | _, Chain.pair e e2 l h1 _ hc, _ => by
    rw [rewriteEntries_pair m b1 e e2 l h1]
    have := chain_rewrite_length_le m hc
    simp only [List.length_cons]
    omega


/-! ### From indexed adjacency conditions to the chain grammar -/

theorem followed_tail {b1 b2 : Nat} {e : PathEntry} {l : List PathEntry}
    (h : FollowedInList b1 b2 (e :: l)) : FollowedInList b1 b2 l := by
  intro i x hx hb
  obtain ⟨e2, h2, hb2⟩ := h (i + 1) x (by simpa using hx) hb
  exact ⟨e2, by simpa using h2, hb2⟩

theorem preceded_head_ne {b1 b2 : Nat} {e : PathEntry} {l : List PathEntry}
    (h : PrecededInList b1 b2 (e :: l)) : e.block ≠ b2 := by
  intro hb
  obtain ⟨j, y, hij, _, _⟩ := h 0 e (by simp) hb
  omega

theorem preceded_tail {b1 b2 : Nat} {e : PathEntry} {l : List PathEntry}
    (hne : e.block ≠ b1) (h : PrecededInList b1 b2 (e :: l)) :
    PrecededInList b1 b2 l := by
  intro i x hx hb
  obtain ⟨j, e2, hij, hj, hb1⟩ := h (i + 1) x (by simpa using hx) hb
  have hji : j = i := by omega
  subst hji
  cases j with
  | zero =>
    have he : e = e2 := by simpa using hj
    rw [← he] at hb1
    exact absurd hb1 hne
  | succ j2 =>
    exact ⟨j2, e2, rfl, by simpa using hj, hb1⟩

theorem preceded_tail_pair {b1 b2 : Nat} {e e2 : PathEntry}
    {l : List PathEntry} (hne : b1 ≠ b2) (hb2 : e2.block = b2)
    (h : PrecededInList b1 b2 (e :: e2 :: l)) : PrecededInList b1 b2 l := by
  intro i x hx hb
  obtain ⟨j, y, hij, hj, hb1⟩ := h (i + 2) x (by simpa using hx) hb
  have hji : j = i + 1 := by omega
  subst hji
  cases i with
  | zero =>
    have hy : e2 = y := by simpa using hj
    rw [← hy] at hb1
    rw [hb2] at hb1
    exact absurd hb1.symm hne
  | succ i2 =>
    exact ⟨i2, y, rfl, by simpa using hj, hb1⟩

theorem followed_head_pair {b1 b2 : Nat} {e : PathEntry}
    {l : List PathEntry} (h : FollowedInList b1 b2 (e :: l))
    (hb : e.block = b1) : ∃ e2 l2, l = e2 :: l2 ∧ e2.block = b2 := by
  obtain ⟨e2, h2, hb2⟩ := h 0 e (by simp) hb
  cases l with
  | nil => simp at h2
  | cons y l2 =>
    have he : y = e2 := by simpa using h2
    exact ⟨y, l2, rfl, he ▸ hb2⟩

theorem chain_of_index_bounded {b1 b2 : Nat} (hne : b1 ≠ b2) :
    ∀ n (l : List PathEntry), l.length ≤ n →
      FollowedInList b1 b2 l → PrecededInList b1 b2 l → Chain b1 b2 l := by
  intro n
  induction n with
  | zero =>
    intro l hl _ _
    have : l = [] := List.length_eq_zero.mp (Nat.le_zero.mp hl)
    exact this ▸ Chain.nil
  | succ n ih =>
    intro l hl hF hP
    match l with
    | [] => exact Chain.nil
    | e :: rest =>
      by_cases hb : e.block = b1
      · obtain ⟨e2, rest2, hrest, hb2⟩ := followed_head_pair hF hb
        subst hrest
        refine Chain.pair e e2 rest2 hb hb2
          (ih rest2 ?_ (followed_tail (followed_tail hF)) (preceded_tail_pair hne hb2 hP))
        simp only [List.length_cons] at hl
        omega
      · refine Chain.skip e rest hb (preceded_head_ne hP)
          (ih rest ?_ (followed_tail hF) (preceded_tail hb hP))
        simp only [List.length_cons] at hl
        omega

theorem chain_of_index {b1 b2 : Nat} (hne : b1 ≠ b2) (l : List PathEntry)
    (hF : FollowedInList b1 b2 l) (hP : PrecededInList b1 b2 l) :
    Chain b1 b2 l :=
  chain_of_index_bounded hne l.length l (Nat.le_refl _) hF hP

/-! ### Propositional form of the merge condition -/

theorem followsOK_iff {b1 : Nat} {s1 : Bool} {b2 : Nat} {s2 : Bool} {p : Path} :
    followsOK b1 s1 b2 s2 p = true ↔ Follows b1 s1 b2 s2 p := by
  constructor
  · intro hall i e hsome hb
    have hi : i < p.entries.length := by
      rcases List.getElem?_eq_some_iff.mp hsome with ⟨h, _⟩
      exact h
    have hbool := List.all_eq_true.mp hall i (List.mem_range.mpr hi)
    rw [hsome] at hbool
    simp only [hb, if_pos] at hbool
    rcases Bool.and_eq_true_iff.mp hbool with ⟨h1, h2⟩
    refine ⟨by simpa using h1, ?_⟩
    cases hm : (cycSucc p i).bind (fun j => p.entries[j]?) with
    | none => rw [hm] at h2; simp at h2
    | some e2 =>
      rw [hm] at h2
      simp only [Bool.and_eq_true_iff, beq_iff_eq] at h2
      obtain ⟨j, hsucc, hj⟩ := Option.bind_eq_some.mp hm
      exact ⟨j, e2, hsucc, hj, h2.1, h2.2⟩
  · intro hF
    refine List.all_eq_true.mpr fun i _ => ?_
    cases hsome : p.entries[i]? with
    | none => simp
    | some e =>
      by_cases hb : e.block = b1
      · obtain ⟨hs, j, e2, hsucc, hj, hb2, hs2⟩ := hF i e hsome hb
        have hm : (cycSucc p i).bind (fun j => p.entries[j]?) = some e2 := by
          rw [hsucc]
          simpa using hj
        simp [hb, hm, hs, hb2, hs2]
      · simp [hb]

theorem precededOK_iff {b1 : Nat} {s1 : Bool} {b2 : Nat} {s2 : Bool} {p : Path} :
    precededOK b1 s1 b2 s2 p = true ↔ Preceded b1 s1 b2 s2 p := by
  constructor
  · intro hall i e hsome hb
    have hi : i < p.entries.length := by
      rcases List.getElem?_eq_some_iff.mp hsome with ⟨h, _⟩
      exact h
    have hbool := List.all_eq_true.mp hall i (List.mem_range.mpr hi)
    rw [hsome] at hbool
    simp only [hb, if_pos] at hbool
    rcases Bool.and_eq_true_iff.mp hbool with ⟨h1, h2⟩
    refine ⟨by simpa using h1, ?_⟩
    cases hm : (cycPred p i).bind (fun j => p.entries[j]?) with
    | none => rw [hm] at h2; simp at h2
    | some e2 =>
      rw [hm] at h2
      simp only [Bool.and_eq_true_iff, beq_iff_eq] at h2
      obtain ⟨j, hpred, hj⟩ := Option.bind_eq_some.mp hm
      exact ⟨j, e2, hpred, hj, h2.1, h2.2⟩
  · intro hP
    refine List.all_eq_true.mpr fun i _ => ?_
    cases hsome : p.entries[i]? with
    | none => simp
    | some e =>
      by_cases hb : e.block = b2
      · obtain ⟨hs, j, e2, hpred, hj, hb1, hs1⟩ := hP i e hsome hb
        have hm : (cycPred p i).bind (fun j => p.entries[j]?) = some e2 := by
          rw [hpred]
          simpa using hj
        simp [hb, hm, hs, hb1, hs1]
      · simp [hb]

/-! ### The merge condition yields the chain grammar on every path -/

theorem lastIs_true_iff {b1 : Nat} {l : List PathEntry} :
    lastIs b1 l = true ↔ ∃ e, l.getLast? = some e ∧ e.block = b1 := by
  cases hl : l.getLast? <;> simp [lastIs, hl]

theorem dropLast_getElem?_of_lt {l : List PathEntry} {j : Nat}
    (hj : j < l.length - 1) : l.dropLast[j]? = l[j]? := by
  rw [List.dropLast_eq_take]
  exact List.getElem?_take_of_lt hj

theorem dropLast_getElem?_lt {l : List PathEntry} {j : Nat} {x : PathEntry}
    (h : l.dropLast[j]? = some x) : j < l.length - 1 := by
  rcases List.getElem?_eq_some_iff.mp h with ⟨hlt, _⟩
  simpa [List.length_dropLast] using hlt

/-- The universal-and-exclusive condition on one path forces the chain
shape on its (seam-rotated, if needed) entry list. -/
theorem chain_of_path {b1 : Nat} {s1 : Bool} {b2 : Nat} {s2 : Bool} {p : Path}
    (hne : b1 ≠ b2) (hF : Follows b1 s1 b2 s2 p) (hP : Preceded b1 s1 b2 s2 p) :
    Chain b1 b2 (rotateIfWraps b1 p).entries := by
  by_cases hrot : (p.circular && lastIs b1 p.entries) = true
  · -- the path ends in b1 on a circular path: it gets rotated
    rcases Bool.and_eq_true_iff.mp hrot with ⟨hcirc, hlast⟩
    obtain ⟨el, hl, hbel⟩ := lastIs_true_iff.mp hlast
    have hr : (rotateIfWraps b1 p).entries = el :: p.entries.dropLast := by
      simp only [rotateIfWraps, hrot, if_pos]
      exact rotR_eq_of_getLast? p.entries el hl
    rw [hr]
    have hn1 : 1 ≤ p.entries.length := by
      have hne0 : p.entries ≠ [] := by
        intro h
        rw [h] at hl
        simp at hl
      have := List.length_pos.mpr hne0
      omega
    have hfl : p.entries[p.entries.length - 1]? = some el := by
      rw [← List.getLast?_eq_getElem?]
      exact hl
    obtain ⟨_, j0, e2, hsucc0, hj0, hb20, _⟩ :=
      hF (p.entries.length - 1) el hfl hbel
    have hj0v : j0 = 0 := by
      have h1 : ¬(p.entries.length - 1 + 1 < p.entries.length) := by omega
      simp only [cycSucc] at hsucc0
      rw [if_neg h1, hcirc, if_pos rfl] at hsucc0
      exact (Option.some.inj hsucc0).symm
    subst hj0v
    have hn2 : 2 ≤ p.entries.length := by
      rcases Nat.lt_or_ge p.entries.length 2 with h | h
      · exfalso
        have h1 : p.entries.length - 1 = 0 := by omega
        rw [h1] at hfl
        have he : el = e2 := Option.some.inj (hfl.symm.trans hj0)
        rw [he, hb20] at hbel
        exact hne hbel.symm
      · exact h
    refine chain_of_index hne _ ?_ ?_
    · -- every b1 in the rotated list is followed there by b2
      intro i x hx hbx
      cases i with
      | zero =>
        refine ⟨e2, ?_, hb20⟩
        have h0 : p.entries.dropLast[0]? = p.entries[0]? :=
          dropLast_getElem?_of_lt (by omega)
        simpa [h0] using hj0
      | succ j =>
        have hxl : p.entries.dropLast[j]? = some x := by simpa using hx
        have hjlt : j < p.entries.length - 1 := dropLast_getElem?_lt hxl
        have hxj : p.entries[j]? = some x := by
          rw [← dropLast_getElem?_of_lt hjlt]
          exact hxl
        obtain ⟨_, j2, y, hsucc, hy, hyb2, _⟩ := hF j x hxj hbx
        have hj2v : j2 = j + 1 := by
          simp only [cycSucc] at hsucc
          rw [if_pos (by omega)] at hsucc
          exact (Option.some.inj hsucc).symm
        subst hj2v
        have hj1 : j + 1 < p.entries.length - 1 := by
          rcases Nat.lt_or_ge (j + 1) (p.entries.length - 1) with h | h
          · exact h
          · exfalso
            have hj1e : j + 1 = p.entries.length - 1 := by omega
            rw [hj1e] at hy
            have hyel : el = y := Option.some.inj (hfl.symm.trans hy)
            rw [← hyel, hbel] at hyb2
            exact hne hyb2
        refine ⟨y, ?_, hyb2⟩
        have hdl : p.entries.dropLast[j + 1]? = p.entries[j + 1]? :=
          dropLast_getElem?_of_lt hj1
        simpa [hdl] using hy
    · -- every b2 in the rotated list is preceded there by b1
      intro i x hx hbx
      cases i with
      | zero =>
        have hx0 : el = x := by simpa using hx
        rw [← hx0, hbel] at hbx
        exact absurd hbx hne
      | succ j =>
        have hxl : p.entries.dropLast[j]? = some x := by simpa using hx
        have hjlt : j < p.entries.length - 1 := dropLast_getElem?_lt hxl
        have hxj : p.entries[j]? = some x := by
          rw [← dropLast_getElem?_of_lt hjlt]
          exact hxl
        obtain ⟨_, j2, y, hpred, hy, hyb1, _⟩ := hP j x hxj hbx
        cases j with
        | zero =>
          have hj2v : j2 = p.entries.length - 1 := by
            simp only [cycPred] at hpred
            rw [hcirc, if_pos rfl] at hpred
            exact (Option.some.inj hpred).symm
          subst hj2v
          have hyel : el = y := Option.some.inj (hfl.symm.trans hy)
          exact ⟨0, el, rfl, by simp, hbel⟩
        | succ j3 =>
          have hj2v : j2 = j3 := by
            simp only [cycPred] at hpred
            rw [if_neg (by omega)] at hpred
            simpa using (Option.some.inj hpred).symm
          rw [hj2v] at hy
          refine ⟨j3 + 1, y, rfl, ?_, hyb1⟩
          have hdl : p.entries.dropLast[j3]? = p.entries[j3]? :=
            dropLast_getElem?_of_lt (by omega)
          simpa [hdl] using hy
  · -- no rotation: the list itself has the chain shape
    have hr : (rotateIfWraps b1 p).entries = p.entries := by
      simp only [rotateIfWraps, if_neg hrot]
    rw [hr]
    refine chain_of_index hne _ ?_ ?_
    · intro i x hx hbx
      obtain ⟨_, j, y, hsucc, hy, hyb2, _⟩ := hF i x hx hbx
      have hi : i < p.entries.length := by
        rcases List.getElem?_eq_some_iff.mp hx with ⟨h, _⟩
        exact h
      by_cases hlt : i + 1 < p.entries.length
      · have hjv : j = i + 1 := by
          simp only [cycSucc] at hsucc
          rw [if_pos hlt] at hsucc
          exact (Option.some.inj hsucc).symm
        exact ⟨y, hjv ▸ hy, hyb2⟩
      · exfalso
        simp only [cycSucc] at hsucc
        rw [if_neg hlt] at hsucc
        cases hc : p.circular with
        | false =>
          rw [hc] at hsucc
          simp at hsucc
        | true =>
          apply hrot
          rw [hc]
          simp only [Bool.true_and]
          apply lastIs_true_iff.mpr
          refine ⟨x, ?_, hbx⟩
          rw [List.getLast?_eq_getElem?]
          have hieq : i = p.entries.length - 1 := by omega
          rw [← hieq]
          exact hx
    · intro i x hx hbx
      obtain ⟨_, j, y, hpred, hy, hyb1, _⟩ := hP i x hx hbx
      cases i with
      | zero =>
        exfalso
        simp only [cycPred] at hpred
        cases hc : p.circular with
        | false =>
          rw [hc] at hpred
          simp at hpred
        | true =>
          rw [hc, if_pos rfl] at hpred
          have hjv : j = p.entries.length - 1 :=
            (Option.some.inj hpred).symm
          apply hrot
          rw [hc]
          simp only [Bool.true_and]
          apply lastIs_true_iff.mpr
          refine ⟨y, ?_, hyb1⟩
          rw [List.getLast?_eq_getElem?]
          rw [← hjv]
          exact hy
      | succ j2 =>
        have hjv : j = j2 := by
          simp only [cycPred] at hpred
          rw [if_neg (by omega)] at hpred
          simpa using (Option.some.inj hpred).symm
        exact ⟨j2, y, rfl, hjv ▸ hy, hyb1⟩

/-! ### Characterization of the candidate search -/

theorem occursIn_iff {b : Nat} {p : Path} :
    occursIn b p = true ↔ ∃ e ∈ p.entries, e.block = b := by
  simp [occursIn]

theorem mergeableB_iff {g : Graph} {b1 : Nat} {s1 : Bool} {b2 : Nat} {s2 : Bool} :
    mergeableB g b1 s1 b2 s2 = true ↔
      b1 ≠ b2 ∧ (∃ q ∈ g.paths, ∃ e ∈ q.2.entries, e.block = b1) ∧
        ∀ q ∈ g.paths, Follows b1 s1 b2 s2 q.2 ∧ Preceded b1 s1 b2 s2 q.2 := by
  simp only [mergeableB, List.any_eq_true, List.all_eq_true, occursIn_iff,
    followsOK_iff, precededOK_iff, Bool.and_eq_true_iff, bne_iff_ne,
    Prod.forall, Prod.exists]
  tauto

theorem firstIdxFrom_spec (b : Nat) :
    ∀ l i, firstIdxFrom b l = some i → ∃ e, l[i]? = some e ∧ e.block = b
  | [], i, h => by simp [firstIdxFrom] at h
  | e :: rest, i, h => by
    by_cases hb : e.block = b
    · simp only [firstIdxFrom, if_pos hb] at h
      obtain rfl := Option.some.inj h
      exact ⟨e, by simp, hb⟩
    · simp only [firstIdxFrom, if_neg hb] at h
      cases hr : firstIdxFrom b rest with
      | none => rw [hr] at h; simp at h
      | some i2 =>
        rw [hr] at h
        simp at h
        have hi : i = i2 + 1 := by omega
        subst hi
        obtain ⟨e2, he2, hb2⟩ := firstIdxFrom_spec b rest i2 hr
        exact ⟨e2, by simpa using he2, hb2⟩

theorem firstIdxFrom_eq_none (b : Nat) :
    ∀ l, firstIdxFrom b l = none → ∀ e ∈ l, e.block ≠ b
  | [], _, e, he => by simp at he
  | x :: rest, h, e, he => by
    by_cases hb : x.block = b
    · simp [firstIdxFrom, hb] at h
    · simp only [firstIdxFrom, if_neg hb] at h
      cases hr : firstIdxFrom b rest with
      | some i => rw [hr] at h; simp at h
      | none =>
        rcases List.mem_cons.mp he with he | he
        · exact he ▸ hb
        · exact firstIdxFrom_eq_none b rest hr e he

theorem findSome?_agree {α β : Type _} {f : α → Option β} {v : β} :
    ∀ l : List α, (∀ x ∈ l, ∀ w, f x = some w → w = v) →
      (∃ x ∈ l, f x = some v) → l.findSome? f = some v
  | [], _, hex => by simp at hex
  | a :: l, hall, hex => by
    cases hfa : f a with
    | some w =>
      have hw : w = v := hall a (by simp) w hfa
      rw [List.findSome?_cons_of_isSome l (by simp [hfa])]
      rw [hfa, hw]
    | none =>
      rw [List.findSome?_cons_of_isNone l (by simp [hfa])]
      refine findSome?_agree l (fun x hx => hall x (by simp [hx])) ?_
      obtain ⟨x, hx, hfx⟩ := hex
      rcases List.mem_cons.mp hx with rfl | hx
      · rw [hfa] at hfx; exact absurd hfx (by simp)
      · exact ⟨x, hx, hfx⟩

theorem pathOccSucc_agree {b1 : Nat} {s1 : Bool} {b2 : Nat} {s2 : Bool}
    {p : Path} (hFq : Follows b1 s1 b2 s2 p) :
    ∀ w, pathOccSucc b1 p = some w → w = (s1, b2, s2) := by
  intro w hw
  unfold pathOccSucc at hw
  obtain ⟨i, hidx, hw⟩ := Option.bind_eq_some.mp hw
  obtain ⟨e, he, hw⟩ := Option.bind_eq_some.mp hw
  obtain ⟨e2, hbind, hw⟩ := Option.map_eq_some'.mp hw
  obtain ⟨e3, he3, heb3⟩ := firstIdxFrom_spec b1 p.entries i hidx
  have hee : e3 = e := Option.some.inj (he3.symm.trans he)
  rw [hee] at heb3
  obtain ⟨hs, j, e4, hsucc, hj, hb2, hs2⟩ := hFq i e he heb3
  have hbind2 : (cycSucc p i).bind (fun j => p.entries[j]?) = some e4 := by
    rw [hsucc]
    simpa using hj
  have he24 : e2 = e4 := Option.some.inj (hbind.symm.trans hbind2)
  rw [← hw, he24, hs, hb2, hs2]

theorem pathOccSucc_some {b1 : Nat} {s1 : Bool} {b2 : Nat} {s2 : Bool}
    {p : Path} (hFq : Follows b1 s1 b2 s2 p)
    (hocc : ∃ e ∈ p.entries, e.block = b1) :
    pathOccSucc b1 p = some (s1, b2, s2) := by
  cases hidx : firstIdxFrom b1 p.entries with
  | none =>
    obtain ⟨e, he, heb⟩ := hocc
    exact absurd heb (firstIdxFrom_eq_none b1 p.entries hidx e he)
  | some i =>
    obtain ⟨e, he, heb⟩ := firstIdxFrom_spec b1 p.entries i hidx
    obtain ⟨hs, j, e2, hsucc, hj, hb2, hs2⟩ := hFq i e he heb
    have hbind : (cycSucc p i).bind (fun j => p.entries[j]?) = some e2 := by
      rw [hsucc]
      simpa using hj
    unfold pathOccSucc
    rw [hidx]
    simp only [Option.some_bind]
    rw [he]
    simp only [Option.some_bind]
    rw [hbind]
    simp [hs, hb2, hs2]

theorem mem_insertSorted (x y : Nat) :
    ∀ l : List Nat, y ∈ insertSorted x l ↔ y = x ∨ y ∈ l
  | [] => by simp [insertSorted]
  | z :: zs => by
    by_cases h : x ≤ z
    · simp [insertSorted, h]
    · simp only [insertSorted, if_neg h, List.mem_cons, mem_insertSorted x y zs]
      tauto

theorem mem_sortIds (y : Nat) : ∀ l : List Nat, y ∈ sortIds l ↔ y ∈ l
  | [] => by simp [sortIds]
  | x :: xs => by
    have hx : sortIds (x :: xs) = insertSorted x (sortIds xs) := rfl
    rw [hx, mem_insertSorted, mem_sortIds y xs]
    simp

/-- Whatever candidate the search returns satisfies the §4.2 step 2
condition. -/
theorem findMergeable_sound {g : Graph} {c : Cand}
    (h : findMergeable g = some c) :
    mergeableB g c.b1 c.s1 c.b2 c.s2 = true := by
  obtain ⟨x, _, hcf⟩ := List.exists_of_findSome?_eq_some h
  unfold candFor at hcf
  obtain ⟨v, _, hif⟩ := Option.bind_eq_some.mp hcf
  by_cases hm : mergeableB g x v.1 v.2.1 v.2.2 = true
  · rw [if_pos hm] at hif
    rw [← Option.some.inj hif]
    exact hm
  · rw [if_neg hm] at hif
    simp at hif

/-- If some adjacency satisfies the §4.2 step 2 condition, the search
finds a candidate (not necessarily that one). -/
theorem findMergeable_complete {g : Graph} {b1 : Nat} {s1 : Bool} {b2 : Nat}
    {s2 : Bool}
    (hwf : ∀ q ∈ g.paths, ∀ e ∈ q.2.entries, e.block ∈ blockIds g)
    (hm : mergeableB g b1 s1 b2 s2 = true) : findMergeable g ≠ none := by
  intro hnone
  obtain ⟨hne, ⟨q, hq, e, he, heb⟩, hall⟩ := mergeableB_iff.mp hm
  have hb1mem : b1 ∈ blockIds g := heb ▸ hwf q hq e he
  have hb1sorted : b1 ∈ sortIds (blockIds g) := (mem_sortIds b1 _).mpr hb1mem
  have hcand : candFor g b1 = none :=
    List.findSome?_eq_none_iff.mp hnone b1 hb1sorted
  have hfo : firstOccSucc g b1 = some (s1, b2, s2) := by
    refine findSome?_agree g.paths ?_ ?_
    · intro x hx w hw
      exact pathOccSucc_agree (hall x hx).1 w hw
    · exact ⟨q, hq, pathOccSucc_some (hall q hq).1 ⟨e, he, heb⟩⟩
  unfold candFor at hcand
  rw [hfo] at hcand
  simp only [Option.some_bind] at hcand
  rw [if_pos hm] at hcand
  simp at hcand

/-! ### Structure of one merge step -/

theorem mergeStep_strains (g : Graph) (c : Cand) :
    strainsOf (mergeStep g c) = strainsOf g := by
  simp [mergeStep, strainsOf, List.map_map, Function.comp]

theorem mergeStep_paths (g : Graph) (c : Cand) :
    (mergeStep g c).paths =
      g.paths.map fun q => (q.1, mergePath (freshId g) c.b1 q.2) := rfl

theorem mergeStep_blocks (g : Graph) (c : Cand) :
    (mergeStep g c).blocks =
      (g.blocks.filter fun b => b.id ≠ c.b1 && b.id ≠ c.b2) ++
        [⟨freshId g, mergedBlockSeq c.s1 (lookupBlock g c.b1).consensus
            c.s2 (lookupBlock g c.b2).consensus⟩] := rfl

theorem blockIds_mergeStep (g : Graph) (c : Cand) :
    blockIds (mergeStep g c) =
      ((g.blocks.filter fun b => b.id ≠ c.b1 && b.id ≠ c.b2).map (·.id)) ++
        [freshId g] := by
  rw [blockIds, mergeStep_blocks, List.map_append]
  rfl

theorem le_foldr_max (x : Nat) : ∀ l : List Nat, x ∈ l → x ≤ l.foldr max 0
  | [], h => by simp at h
  | y :: ys, h => by
    rw [List.foldr_cons]
    rcases List.mem_cons.mp h with rfl | h
    · exact Nat.le_max_left _ _
    · exact Nat.le_trans (le_foldr_max x ys h) (Nat.le_max_right _ _)

theorem lt_freshId {g : Graph} {i : Nat} (h : i ∈ blockIds g) : i < freshId g := by
  unfold freshId
  have := le_foldr_max i (blockIds g) h
  omega

theorem mem_rotR {l : List PathEntry} {x : PathEntry} : x ∈ rotR l ↔ x ∈ l := by
  cases hl : l.getLast? with
  | none =>
    have : l = [] := by cases l <;> simp_all
    simp [this, rotR_nil]
  | some e =>
    rw [rotR_eq_of_getLast? l e hl]
    conv_rhs => rw [← dropLast_append_last l e hl]
    simp [List.mem_append, or_comm]

theorem mem_rotateIfWraps {b1 : Nat} {p : Path} {x : PathEntry} :
    x ∈ (rotateIfWraps b1 p).entries ↔ x ∈ p.entries := by
  by_cases h : (p.circular && lastIs b1 p.entries) = true
  · simp only [rotateIfWraps, if_pos h]
    exact mem_rotR
  · simp only [rotateIfWraps, if_neg h]

theorem mergeable_b1_mem {g : Graph} {b1 : Nat} {s1 : Bool} {b2 : Nat} {s2 : Bool}
    (hwf : ∀ q ∈ g.paths, ∀ e ∈ q.2.entries, e.block ∈ blockIds g)
    (hm : mergeableB g b1 s1 b2 s2 = true) : b1 ∈ blockIds g := by
  obtain ⟨_, ⟨q, hq, e, he, heb⟩, _⟩ := mergeableB_iff.mp hm
  exact heb ▸ hwf q hq e he

theorem mergeable_b2_mem {g : Graph} {b1 : Nat} {s1 : Bool} {b2 : Nat} {s2 : Bool}
    (hwf : ∀ q ∈ g.paths, ∀ e ∈ q.2.entries, e.block ∈ blockIds g)
    (hm : mergeableB g b1 s1 b2 s2 = true) : b2 ∈ blockIds g := by
  obtain ⟨_, ⟨q, hq, e, he, heb⟩, hall⟩ := mergeableB_iff.mp hm
  obtain ⟨i, hi⟩ := List.mem_iff_getElem?.mp he
  obtain ⟨_, j, e2, hsucc, hj, hb2, _⟩ := (hall q hq).1 i e hi heb
  exact hb2 ▸ hwf q hq e2 (List.getElem?_mem hj)

/-- A merge step preserves the §3 structural invariants. -/
theorem mergeStep_inv {g : Graph} {c : Cand} (hInv : Inv g)
    (hm : mergeableB g c.b1 c.s1 c.b2 c.s2 = true) : Inv (mergeStep g c) := by
  obtain ⟨hne, hocc, hall⟩ := mergeableB_iff.mp hm
  refine ⟨?_, ?_, ?_⟩
  · rw [blockIds_mergeStep, List.nodup_append]
    refine ⟨?_, List.nodup_singleton _, ?_⟩
    · exact List.Nodup.sublist ((List.filter_sublist g.blocks).map (·.id))
        hInv.idsNodup
    · intro x hx hx2
      have hxid : x ∈ blockIds g :=
        List.Sublist.mem hx ((List.filter_sublist g.blocks).map (·.id))
      have hxe : x = freshId g := by simpa using hx2
      have := lt_freshId hxid
      omega
  · rw [show strainsOf (mergeStep g c) = strainsOf g from mergeStep_strains g c]
    exact hInv.namesNodup
  · intro q' hq' e' he'
    rw [mergeStep_paths] at hq'
    obtain ⟨q, hq, hq'eq⟩ := List.mem_map.mp hq'
    subst hq'eq
    have hchain : Chain c.b1 c.b2 (rotateIfWraps c.b1 q.2).entries :=
      chain_of_path hne (hall q hq).1 (hall q hq).2
    rcases chain_rewrite_block_mem _ hchain e' he' with hm' | ⟨hmem, hb1, hb2⟩
    · rw [blockIds_mergeStep, hm']
      simp
    · have hmem2 : e' ∈ q.2.entries := mem_rotateIfWraps.mp hmem
      have hid : e'.block ∈ blockIds g := hInv.entriesWf q hq e' hmem2
      rw [blockIds_mergeStep]
      apply List.mem_append_left
      obtain ⟨blk, hblk, hbid⟩ := List.mem_map.mp hid
      exact List.mem_map.mpr
        ⟨blk, List.mem_filter.mpr ⟨hblk, by simp [hbid, hb1, hb2]⟩, hbid⟩

theorem filter_ne_one (b : Nat) :
    ∀ l : List Block, (l.map (·.id)).Nodup → b ∈ l.map (·.id) →
      (l.filter fun x => x.id ≠ b).length + 1 = l.length
  | [], _, h => by simp at h
  | x :: t, hnd, h => by
    simp only [List.map_cons, List.nodup_cons] at hnd
    obtain ⟨hxnot, hndt⟩ := hnd
    by_cases hx : x.id = b
    · subst hx
      rw [List.filter_cons]
      simp
      intro a ha hax
      exact hxnot (List.mem_map.mpr ⟨a, ha, hax⟩)
    · have hbt : b ∈ t.map (·.id) := by
        simp only [List.map_cons, List.mem_cons, List.mem_map] at h
        rcases h with h1 | ⟨a, ha, hai⟩
        · exact absurd h1.symm hx
        · exact List.mem_map.mpr ⟨a, ha, hai⟩
      rw [List.filter_cons_of_pos (by simp [hx])]
      simp only [List.length_cons]
      have := filter_ne_one b t hndt hbt
      omega

theorem filter_ne_two {b1 b2 : Nat} (hne : b1 ≠ b2) (l : List Block)
    (hnd : (l.map (·.id)).Nodup) (h1 : b1 ∈ l.map (·.id))
    (h2 : b2 ∈ l.map (·.id)) :
    (l.filter fun b => b.id ≠ b1 && b.id ≠ b2).length + 2 = l.length := by
  have hsplit : (l.filter fun b => b.id ≠ b1 && b.id ≠ b2) =
      (l.filter fun b => b.id ≠ b1).filter fun b => b.id ≠ b2 := by
    rw [List.filter_filter]
    apply List.filter_congr
    intro a _
    exact Bool.and_comm _ _
  rw [hsplit]
  have hsub : ((l.filter fun b => b.id ≠ b1).map (·.id)).Nodup :=
    List.Nodup.sublist ((List.filter_sublist l).map (·.id)) hnd
  have hb2mem : b2 ∈ (l.filter fun b => b.id ≠ b1).map (·.id) := by
    obtain ⟨blk, hblk, hbid⟩ := List.mem_map.mp h2
    refine List.mem_map.mpr ⟨blk, List.mem_filter.mpr ⟨hblk, ?_⟩, hbid⟩
    simp [hbid, Ne.symm hne]
  have hone := filter_ne_one b2 _ hsub hb2mem
  have hone1 := filter_ne_one b1 l hnd h1
  omega

/-- A merge step removes exactly one block: the two constituents go, the
coalesced block arrives. -/
theorem mergeStep_length {g : Graph} {c : Cand} (hInv : Inv g)
    (hm : mergeableB g c.b1 c.s1 c.b2 c.s2 = true) :
    (mergeStep g c).blocks.length + 1 = g.blocks.length := by
  rw [mergeStep_blocks, List.length_append]
  have h1 : c.b1 ∈ blockIds g := mergeable_b1_mem hInv.entriesWf hm
  have h2 : c.b2 ∈ blockIds g := mergeable_b2_mem hInv.entriesWf hm
  have hne : c.b1 ≠ c.b2 := (mergeableB_iff.mp hm).1
  have := filter_ne_two hne g.blocks hInv.idsNodup h1 h2
  simp only [List.length_singleton]
  omega

/-! ### The merge loop: reconstruction relation, invariants, counts -/

theorem pathRel_refl (p : Path) : PathRel p p :=
  ⟨rfl, 0, (List.rotate_zero _).symm, fun _ => rfl⟩

theorem pathRel_trans {p q r : Path} (h1 : PathRel p q) (h2 : PathRel q r) :
    PathRel p r := by
  obtain ⟨hc1, k1, hk1, hz1⟩ := h1
  obtain ⟨hc2, k2, hk2, hz2⟩ := h2
  refine ⟨hc2.trans hc1, k1 + k2, ?_, ?_⟩
  · rw [hk2, hk1, List.rotate_rotate]
  · intro hlin
    have hq : q.circular = false := hc1.trans hlin
    rw [hz1 hlin, hz2 hq]

/-- Rewriting one path for a merge preserves its reconstruction up to
rotation — exactly (rotation 0) when the path is linear. -/
theorem pathRel_mergePath (m b1 : Nat) (p : Path) :
    PathRel p (mergePath m b1 p) := by
  refine ⟨rfl, ?_⟩
  by_cases h : (p.circular && lastIs b1 p.entries) = true
  · obtain ⟨k, hk⟩ := reconEntries_rotR p.entries
    refine ⟨k, ?_, ?_⟩
    · show reconPath (mergePath m b1 p) = _
      unfold mergePath reconPath
      rw [reconEntries_rewrite]
      simp only [rotateIfWraps, if_pos h]
      exact hk
    · intro hlin
      rw [hlin] at h
      simp at h
  · refine ⟨0, ?_, fun _ => rfl⟩
    show reconPath (mergePath m b1 p) = _
    unfold mergePath reconPath
    rw [reconEntries_rewrite]
    simp only [rotateIfWraps, if_neg h]
    rw [List.rotate_zero]

theorem forall₂_trans_aux {R : (String × Path) → (String × Path) → Prop}
    (htrans : ∀ a b c, R a b → R b c → R a c) :
    ∀ {l1 l2 l3 : List (String × Path)}, List.Forall₂ R l1 l2 →
      List.Forall₂ R l2 l3 → List.Forall₂ R l1 l3
  | _, _, _, List.Forall₂.nil, List.Forall₂.nil => List.Forall₂.nil
  | _, _, _, List.Forall₂.cons h1 t1, List.Forall₂.cons h2 t2 =>
    List.Forall₂.cons (htrans _ _ _ h1 h2) (forall₂_trans_aux htrans t1 t2)

theorem graphRel_refl (g : Graph) : GraphRel g g := by
  unfold GraphRel
  exact List.forall₂_same.mpr fun x _ => ⟨rfl, pathRel_refl x.2⟩

theorem graphRel_trans {g1 g2 g3 : Graph} (h1 : GraphRel g1 g2)
    (h2 : GraphRel g2 g3) : GraphRel g1 g3 :=
  forall₂_trans_aux
    (fun _ _ _ hab hbc => ⟨hab.1.trans hbc.1, pathRel_trans hab.2 hbc.2⟩) h1 h2

theorem graphRel_mergeStep (g : Graph) (c : Cand) :
    GraphRel g (mergeStep g c) := by
  unfold GraphRel
  rw [mergeStep_paths, List.forall₂_map_right_iff]
  exact List.forall₂_same.mpr fun q _ => ⟨rfl, pathRel_mergePath _ _ q.2⟩

theorem mergeLoop_zero (g : Graph) : mergeLoop 0 g = g := rfl

theorem mergeLoop_succ_none {g : Graph} (fuel : Nat)
    (h : findMergeable g = none) : mergeLoop (fuel + 1) g = g := by
  simp only [mergeLoop, h]

theorem mergeLoop_succ_some {g : Graph} {c : Cand} (fuel : Nat)
    (h : findMergeable g = some c) :
    mergeLoop (fuel + 1) g = mergeLoop fuel (mergeStep g c) := by
  simp only [mergeLoop, h]

theorem mergeLoop_of_none {g : Graph} (h : findMergeable g = none) :
    ∀ fuel, mergeLoop fuel g = g
  | 0 => rfl
  | fuel + 1 => mergeLoop_succ_none fuel h

/-- Any property preserved by single merges under the invariant holds for
the whole loop, together with the invariant. -/
theorem mergeLoop_preserves (P : Graph → Prop)
    (hstep : ∀ g c, Inv g → mergeableB g c.b1 c.s1 c.b2 c.s2 = true → P g →
      P (mergeStep g c)) :
    ∀ fuel (g : Graph), Inv g → P g →
      Inv (mergeLoop fuel g) ∧ P (mergeLoop fuel g)
  | 0, _, hInv, hP => ⟨hInv, hP⟩
  | fuel + 1, g, hInv, hP => by
    cases hf : findMergeable g with
    | none =>
      rw [mergeLoop_succ_none fuel hf]
      exact ⟨hInv, hP⟩
    | some c =>
      rw [mergeLoop_succ_some fuel hf]
      have hm := findMergeable_sound hf
      exact mergeLoop_preserves P hstep fuel (mergeStep g c)
        (mergeStep_inv hInv hm) (hstep g c hInv hm hP)

/-- The loop relates every path of the input to the corresponding output
path: same strain, same circular flag, reconstruction preserved up to
rotation (exactly, when linear). -/
theorem mergeLoop_rel : ∀ fuel (g : Graph), GraphRel g (mergeLoop fuel g)
  | 0, g => graphRel_refl g
  | fuel + 1, g => by
    cases hf : findMergeable g with
    | none =>
      rw [mergeLoop_succ_none fuel hf]
      exact graphRel_refl g
    | some c =>
      rw [mergeLoop_succ_some fuel hf]
      exact graphRel_trans (graphRel_mergeStep g c)
        (mergeLoop_rel fuel (mergeStep g c))

theorem mergeLoop_length_le : ∀ fuel (g : Graph), Inv g →
    (mergeLoop fuel g).blocks.length ≤ g.blocks.length
  | 0, g, _ => Nat.le_refl _
  | fuel + 1, g, hInv => by
    cases hf : findMergeable g with
    | none =>
      rw [mergeLoop_succ_none fuel hf]
    | some c =>
      rw [mergeLoop_succ_some fuel hf]
      have hm := findMergeable_sound hf
      have hlen := mergeStep_length hInv hm
      have hrec := mergeLoop_length_le fuel (mergeStep g c)
        (mergeStep_inv hInv hm)
      omega

theorem findMergeable_no_blocks {g : Graph} (h : g.blocks.length = 0) :
    findMergeable g = none := by
  have hb : g.blocks = [] := List.length_eq_zero.mp h
  unfold findMergeable blockIds
  rw [hb]
  rfl

/-- With as much fuel as there are blocks, the loop reaches a fixed point:
no merge candidate remains. -/
theorem mergeLoop_fixed : ∀ fuel (g : Graph), Inv g →
    g.blocks.length ≤ fuel → findMergeable (mergeLoop fuel g) = none
  | 0, g, _, hf => by
    rw [mergeLoop_zero]
    exact findMergeable_no_blocks (Nat.le_zero.mp hf)
  | fuel + 1, g, hInv, hfuel => by
    cases hf : findMergeable g with
    | none =>
      rw [mergeLoop_succ_none fuel hf]
      exact hf
    | some c =>
      rw [mergeLoop_succ_some fuel hf]
      have hm := findMergeable_sound hf
      have hlen := mergeStep_length hInv hm
      exact mergeLoop_fixed fuel (mergeStep g c) (mergeStep_inv hInv hm)
        (by omega)

/-! ### Restriction to the strain set -/

theorem validStrainSet_iff {g : Graph} {S : List String} :
    validStrainSet g S = true ↔ S ≠ [] ∧ ∀ s ∈ S, s ∈ strainsOf g := by
  simp [validStrainSet, List.all_eq_true, List.isEmpty_iff]

theorem marginalize_ok {g : Graph} {S : List String}
    (h : validStrainSet g S = true) :
    marginalize g S =
      Except.ok (mergeLoop (restrict g S).blocks.length (restrict g S)) := by
  simp only [marginalize, if_pos h]

theorem marginalize_error {g : Graph} {S : List String}
    (h : validStrainSet g S = false) :
    marginalize g S = Except.error MarginalizeError.InvalidStrainSet := by
  simp only [marginalize, h, Bool.false_eq_true, if_false]

theorem restrict_blocks (g : Graph) (S : List String) :
    (restrict g S).blocks = touchedBlocks g S := rfl

theorem restrict_paths (g : Graph) (S : List String) :
    (restrict g S).paths = g.paths.filter fun q => S.contains q.1 := rfl

/-- Restriction preserves the §3 structural invariants. -/
theorem restrict_inv {g : Graph} (S : List String) (hInv : Inv g) :
    Inv (restrict g S) := by
  refine ⟨?_, ?_, ?_⟩
  · show ((g.blocks.filter fun b =>
        g.paths.any fun q => S.contains q.1 && occursIn b.id q.2).map (·.id)).Nodup
    exact List.Nodup.sublist ((List.filter_sublist g.blocks).map (·.id))
      hInv.idsNodup
  · show ((g.paths.filter fun q => S.contains q.1).map (·.1)).Nodup
    exact List.Nodup.sublist ((List.filter_sublist g.paths).map (·.1))
      hInv.namesNodup
  · intro q hq e he
    rw [restrict_paths] at hq
    obtain ⟨hqg, hqS⟩ := List.mem_filter.mp hq
    have hid : e.block ∈ blockIds g := hInv.entriesWf q hqg e he
    obtain ⟨blk, hblk, hbid⟩ := List.mem_map.mp hid
    refine List.mem_map.mpr ⟨blk, ?_, hbid⟩
    refine List.mem_filter.mpr ⟨hblk, ?_⟩
    refine List.any_eq_true.mpr ⟨q, hqg, ?_⟩
    refine Bool.and_eq_true_iff.mpr ⟨hqS, ?_⟩
    exact occursIn_iff.mpr ⟨e, he, hbid.symm⟩

theorem find?_filter {p q : (String × Path) → Bool}
    (himp : ∀ x, p x = true → q x = true) :
    ∀ l : List (String × Path), (l.filter q).find? p = l.find? p
  | [] => rfl
  | x :: t => by
    by_cases hq : q x = true
    · rw [List.filter_cons_of_pos hq]
      by_cases hp : p x = true
      · rw [List.find?_cons_of_pos _ hp, List.find?_cons_of_pos _ hp]
      · rw [List.find?_cons_of_neg _ (by simpa using hp),
          List.find?_cons_of_neg _ (by simpa using hp)]
        exact find?_filter himp t
    · rw [List.filter_cons_of_neg (by simpa using hq)]
      have hp : ¬p x = true := fun hp => hq (himp x hp)
      rw [List.find?_cons_of_neg _ (by simpa using hp)]
      exact find?_filter himp t

/-- For a retained strain, restriction does not change the path found. -/
theorem lookupPath_restrict {g : Graph} {S : List String} {s : String}
    (hs : s ∈ S) : lookupPath (restrict g S) s = lookupPath g s := by
  unfold lookupPath
  rw [restrict_paths]
  congr 1
  apply find?_filter
  intro x hx
  have : x.1 = s := by simpa using hx
  rw [this]
  simpa using hs

theorem mergeLoop_strains : ∀ fuel (g : Graph),
    strainsOf (mergeLoop fuel g) = strainsOf g
  | 0, _ => rfl
  | fuel + 1, g => by
    cases hf : findMergeable g with
    | none => rw [mergeLoop_succ_none fuel hf]
    | some c =>
      rw [mergeLoop_succ_some fuel hf]
      rw [mergeLoop_strains fuel (mergeStep g c)]
      exact mergeStep_strains g c

/-- Every block of the restricted graph is touched by a retained path. -/
theorem allTouched_restrict (g : Graph) (S : List String) :
    ∀ b ∈ (restrict g S).blocks, ∃ q ∈ (restrict g S).paths,
      ∃ e ∈ q.2.entries, e.block = b.id := by
  intro b hb
  rw [restrict_blocks] at hb
  obtain ⟨hbg, hcond⟩ := List.mem_filter.mp hb
  obtain ⟨q, hq, hqc⟩ := List.any_eq_true.mp hcond
  obtain ⟨hS, hocc⟩ := Bool.and_eq_true_iff.mp hqc
  obtain ⟨e, he, heb⟩ := occursIn_iff.mp hocc
  exact ⟨q, List.mem_filter.mpr ⟨hq, hS⟩, e, he, heb⟩

/-- A merge step keeps every block touched by some path. -/
theorem allTouched_mergeStep {g : Graph} {c : Cand} (hInv : Inv g)
    (hm : mergeableB g c.b1 c.s1 c.b2 c.s2 = true)
    (hAT : ∀ b ∈ g.blocks, ∃ q ∈ g.paths, ∃ e ∈ q.2.entries, e.block = b.id) :
    ∀ b ∈ (mergeStep g c).blocks, ∃ q ∈ (mergeStep g c).paths,
      ∃ e ∈ q.2.entries, e.block = b.id := by
  obtain ⟨hne, hocc, hall⟩ := mergeableB_iff.mp hm
  intro b hb
  rw [mergeStep_blocks] at hb
  rcases List.mem_append.mp hb with hb | hb
  · obtain ⟨hbg, hcond⟩ := List.mem_filter.mp hb
    simp only [Bool.and_eq_true_iff, decide_eq_true_eq] at hcond
    obtain ⟨q, hq, e, he, heb⟩ := hAT b hbg
    have hchain : Chain c.b1 c.b2 (rotateIfWraps c.b1 q.2).entries :=
      chain_of_path hne (hall q hq).1 (hall q hq).2
    refine ⟨(q.1, mergePath (freshId g) c.b1 q.2), ?_, e, ?_, heb⟩
    · rw [mergeStep_paths]
      exact List.mem_map.mpr ⟨q, hq, rfl⟩
    · show e ∈ rewriteEntries (freshId g) c.b1 (rotateIfWraps c.b1 q.2).entries
      refine chain_rewrite_mem_of _ hchain e (mem_rotateIfWraps.mpr he) ?_ ?_
      · rw [heb]; exact hcond.1
      · rw [heb]; exact hcond.2
  · have hbM : b.id = freshId g := by
      have : b = ⟨freshId g, mergedBlockSeq c.s1 (lookupBlock g c.b1).consensus
          c.s2 (lookupBlock g c.b2).consensus⟩ := by simpa using hb
      rw [this]
    obtain ⟨q, hq, e, he, heb⟩ := hocc
    have hchain : Chain c.b1 c.b2 (rotateIfWraps c.b1 q.2).entries :=
      chain_of_path hne (hall q hq).1 (hall q hq).2
    obtain ⟨x, hx, hxm⟩ := chain_rewrite_m_mem (freshId g) hchain
      ⟨e, mem_rotateIfWraps.mpr he, heb⟩
    refine ⟨(q.1, mergePath (freshId g) c.b1 q.2), ?_, x, hx, ?_⟩
    · rw [mergeStep_paths]
      exact List.mem_map.mpr ⟨q, hq, rfl⟩
    · rw [hxm, hbM]

/-! ### Support for the single-strain case -/

theorem filter_singleton_aux {s : String} {p : Path} :
    ∀ l : List (String × Path), (l.map (·.1)).Nodup →
      (l.find? fun q => q.1 = s).map (·.2) = some p →
      l.filter (fun q => [s].contains q.1) = [(s, p)]
  | [], _, hp => by simp at hp
  | x :: t, hnd, hp => by
    simp only [List.map_cons, List.nodup_cons] at hnd
    obtain ⟨hxnot, hndt⟩ := hnd
    by_cases hx : x.1 = s
    · rw [List.find?_cons_of_pos _ (by simp [hx])] at hp
      have hpx : x.2 = p := by simpa using hp
      rw [List.filter_cons_of_pos (by simp [hx])]
      have ht : t.filter (fun q => [s].contains q.1) = [] := by
        rw [List.filter_eq_nil_iff]
        intro a ha
        have hmem : a.1 ∈ t.map (·.1) := List.mem_map.mpr ⟨a, ha, rfl⟩
        intro hcontra
        have has : a.1 = s := by simpa using hcontra
        rw [has, ← hx] at hmem
        exact hxnot hmem
      rw [ht]
      have hxp : x = (s, p) := by
        have := Prod.mk.eta (p := x)
        rw [← this, hx, hpx]
      rw [hxp]
    · rw [List.find?_cons_of_neg _ (by simp [hx])] at hp
      rw [List.filter_cons_of_neg (by simp [hx])]
      exact filter_singleton_aux t hndt hp

theorem rotR_ne_nil {l : List PathEntry} (h : l ≠ []) : rotR l ≠ [] := by
  cases hl : l.getLast? with
  | none =>
    exfalso
    apply h
    cases l with
    | nil => rfl
    | cons x xs => simp [List.getLast?_eq_getElem?] at hl
  | some e =>
    rw [rotR_eq_of_getLast? l e hl]
    simp

theorem mergePath_ne_nil {m b1 : Nat} {p : Path} (h : p.entries ≠ []) :
    (mergePath m b1 p).entries ≠ [] := by
  unfold mergePath
  apply rewrite_ne_nil
  by_cases hw : (p.circular && lastIs b1 p.entries) = true
  · simp only [rotateIfWraps, if_pos hw]
    exact rotR_ne_nil h
  · simp only [rotateIfWraps, if_neg hw]
    exact h

theorem rotR_blocks_nodup {l : List PathEntry}
    (h : (l.map (·.block)).Nodup) : ((rotR l).map (·.block)).Nodup := by
  cases hl : l.getLast? with
  | none =>
    have : l = [] := by cases l <;> simp_all
    subst this
    simp [rotR_nil]
  | some e =>
    rw [rotR_eq_of_getLast? l e hl]
    have hdecomp := dropLast_append_last l e hl
    rw [← hdecomp] at h
    have hperm : ((l.dropLast ++ [e]).map (·.block)).Perm
        ((e :: l.dropLast).map (·.block)) :=
      List.Perm.map _ (List.perm_append_singleton e l.dropLast)
    exact hperm.nodup h

theorem chain_rewrite_nodup {b1 b2 m : Nat} :
    ∀ {l : List PathEntry}, Chain b1 b2 l → (l.map (·.block)).Nodup →
      (∀ e ∈ l, e.block ≠ m) →
      ((rewriteEntries m b1 l).map (·.block)).Nodup
  | _, Chain.nil, _, _ => by simp [rewriteEntries_nil]
  | _, Chain.skip e l h1 h2 hc, hnd, hnm => by
    rw [rewriteEntries_skip m b1 e l h1]
    simp only [List.map_cons, List.nodup_cons] at hnd ⊢
    obtain ⟨hehd, hndt⟩ := hnd
    refine ⟨?_, chain_rewrite_nodup hc hndt fun x hx => hnm x (by simp [hx])⟩
    intro hcontra
    obtain ⟨x, hx, hxb⟩ := List.mem_map.mp hcontra
    rcases chain_rewrite_block_mem m hc x hx with hxm | ⟨hxl, _, _⟩
    · refine hnm e (by simp) ?_
      rw [← hxb]
      exact hxm
    · exact hehd (List.mem_map.mpr ⟨x, hxl, hxb⟩)
  | _, Chain.pair e e2 l h1 h2 hc, hnd, hnm => by
    rw [rewriteEntries_pair m b1 e e2 l h1]
    simp only [List.map_cons, List.nodup_cons] at hnd ⊢
    obtain ⟨hehd, he2hd, hndt⟩ := hnd
    have hnob1 : ∀ x ∈ l, x.block ≠ b1 := by
      intro x hx hcontra
      apply hehd
      right
      exact List.mem_map.mpr ⟨x, hx, by rw [hcontra, h1]⟩
    rw [rewrite_eq_of_no_b1 m b1 l hnob1]
    refine ⟨?_, hndt⟩
    intro hcontra
    obtain ⟨x, hx, hxb⟩ := List.mem_map.mp hcontra
    exact hnm x (by simp [hx]) hxb

theorem mergeable_of_single_adjacent {gout : Graph} {s : String} {q : Path}
    (hpaths : gout.paths = [(s, q)]) (hnd : (q.entries.map (·.block)).Nodup)
    {e0 e1 : PathEntry} (h0 : q.entries[0]? = some e0)
    (h1 : q.entries[1]? = some e1) :
    mergeableB gout e0.block e0.strand e1.block e1.strand = true := by
  have hlen : 2 ≤ q.entries.length := by
    rcases List.getElem?_eq_some_iff.mp h1 with ⟨hl, _⟩
    omega
  have hmap0 : (q.entries.map (·.block))[0]? = some e0.block := by
    rw [List.getElem?_map, h0]
    rfl
  have hmap1 : (q.entries.map (·.block))[1]? = some e1.block := by
    rw [List.getElem?_map, h1]
    rfl
  have hidx : ∀ i e, q.entries[i]? = some e → e.block = e0.block → i = 0 := by
    intro i e hi he
    have hmapi : (q.entries.map (·.block))[i]? = some e0.block := by
      rw [List.getElem?_map, hi]
      simp [he]
    refine List.getElem?_inj ?_ hnd (hmapi.trans hmap0.symm)
    rcases List.getElem?_eq_some_iff.mp hi with ⟨hl, _⟩
    simpa using hl
  have hidx1 : ∀ i e, q.entries[i]? = some e → e.block = e1.block → i = 1 := by
    intro i e hi he
    have hmapi : (q.entries.map (·.block))[i]? = some e1.block := by
      rw [List.getElem?_map, hi]
      simp [he]
    refine List.getElem?_inj ?_ hnd (hmapi.trans hmap1.symm)
    rcases List.getElem?_eq_some_iff.mp hi with ⟨hl, _⟩
    simpa using hl
  have hne01 : e0.block ≠ e1.block := by
    intro hcontra
    have := hidx1 0 e0 h0 hcontra
    omega
  apply mergeableB_iff.mpr
  refine ⟨hne01, ⟨(s, q), by rw [hpaths]; simp, e0, List.getElem?_mem h0, rfl⟩, ?_⟩
  intro q' hq'
  rw [hpaths] at hq'
  have hq'eq : q' = (s, q) := by simpa using hq'
  subst hq'eq
  constructor
  · intro i e hi he
    have hi0 : i = 0 := hidx i e hi he
    subst hi0
    have hee : e = e0 := Option.some.inj (h0.symm.trans hi).symm
    subst hee
    refine ⟨rfl, 1, e1, ?_, h1, rfl, rfl⟩
    simp only [cycSucc]
    rw [if_pos (by omega)]
  · intro i e hi he
    have hi1 : i = 1 := hidx1 i e hi he
    subst hi1
    have hee : e = e1 := Option.some.inj (h1.symm.trans hi).symm
    subst hee
    refine ⟨rfl, 0, e0, ?_, h0, rfl, rfl⟩
    simp only [cycPred]
    rw [if_neg (by omega)]

theorem nodup_all_eq_length_le {l : List Nat} {x : Nat} (hnd : l.Nodup)
    (hall : ∀ y ∈ l, y = x) : l.length ≤ 1 := by
  match l with
  | [] => simp
  | [a] => simp
  | a :: b :: t =>
    exfalso
    have ha : a = x := hall a (by simp)
    have hb : b = x := hall b (by simp)
    simp only [List.nodup_cons] at hnd
    exact hnd.1 (by rw [ha, ← hb]; simp)

/-! ### Unpacking a successful marginalization -/

theorem marginalize_out {g : Graph} {S : List String} {out : Graph}
    (h : marginalize g S = Except.ok out) :
    validStrainSet g S = true ∧
      out = mergeLoop (restrict g S).blocks.length (restrict g S) := by
  cases hv : validStrainSet g S with
  | true =>
    rw [marginalize_ok hv] at h
    exact ⟨rfl, (Except.ok.inj h).symm⟩
  | false =>
    rw [marginalize_error hv] at h
    simp at h

theorem lookup_forall₂ {R : Path → Path → Prop} :
    ∀ {l1 l2 : List (String × Path)},
      List.Forall₂ (fun x y => x.1 = y.1 ∧ R x.2 y.2) l1 l2 → ∀ s : String,
      ((l1.find? fun q => q.1 = s) = none ∧
        (l2.find? fun q => q.1 = s) = none) ∨
        ∃ x y, (l1.find? fun q => q.1 = s) = some x ∧
          (l2.find? fun q => q.1 = s) = some y ∧ R x.2 y.2
  | _, _, List.Forall₂.nil, _ => Or.inl ⟨rfl, rfl⟩
  | a :: _, b :: _, List.Forall₂.cons hab hrest, s => by
    by_cases hs : a.1 = s
    · right
      have hbs : b.1 = s := by rw [← hab.1]; exact hs
      exact ⟨a, b, List.find?_cons_of_pos _ (by simp [hs]),
        List.find?_cons_of_pos _ (by simp [hbs]), hab.2⟩
    · have hbs : ¬b.1 = s := by rw [← hab.1]; exact hs
      rw [List.find?_cons_of_neg _ (by simpa using hs),
        List.find?_cons_of_neg _ (by simpa using hbs)]
      exact lookup_forall₂ hrest s

/-- C1 (amended): for every graph, valid strain set and retained strain,
the sequence reconstructed from the marginalized graph equals the one
reconstructed from the input graph character for character when the
strain's path is linear, and equals a rotation of it when the path is
circular (merging the adjacency that wraps the circular seam shifts the
starting coordinate); the circular flag is preserved. -/
theorem c1_sequence_fidelity {g : Graph} {S : List String} {out : Graph}
    {s : String} (hout : marginalize g S = Except.ok out) (hs : s ∈ S) :
    ∃ p q, lookupPath g s = some p ∧ lookupPath out s = some q ∧
      q.circular = p.circular ∧
      (p.circular = false → reconPath q = reconPath p) ∧
      (p.circular = true → ∃ k, reconPath q = (reconPath p).rotate k) := by
  obtain ⟨hv, houteq⟩ := marginalize_out hout
  have hsg : s ∈ strainsOf g := (validStrainSet_iff.mp hv).2 s hs
  have hrel : GraphRel (restrict g S)
      (mergeLoop (restrict g S).blocks.length (restrict g S)) :=
    mergeLoop_rel _ _
  rw [← houteq] at hrel
  rcases lookup_forall₂ hrel s with ⟨hn1, _⟩ | ⟨x, y, hx, hy, hR⟩
  · exfalso
    have hnone : lookupPath (restrict g S) s = none := by
      unfold lookupPath
      rw [hn1]
      rfl
    rw [lookupPath_restrict hs] at hnone
    obtain ⟨qq, hqq, hq1⟩ := List.mem_map.mp hsg
    unfold lookupPath at hnone
    rw [Option.map_eq_none'] at hnone
    rw [List.find?_eq_none] at hnone
    exact hnone qq hqq (by simp [hq1])
  · refine ⟨x.2, y.2, ?_, ?_, hR.1, ?_, ?_⟩
    · rw [← lookupPath_restrict hs]
      unfold lookupPath
      rw [hx]
      rfl
    · unfold lookupPath
      rw [hy]
      rfl
    · intro hlin
      obtain ⟨k, hk, hz⟩ := hR.2
      rw [hz hlin] at hk
      rw [hk, List.rotate_zero]
    · intro _
      obtain ⟨k, hk, _⟩ := hR.2
      exact ⟨k, hk⟩

/-- C1 counterexample: for the circular strain of `gCirc`, stored starting
at block 2, the universal-and-exclusive adjacency 1→2 wraps the seam;
merging it produces a sequence starting at block 1's content, a proper
rotation of — not equal to — the original reconstruction. -/
theorem c1_counterexample :
    marginalize gCirc ["A"] = Except.ok gCircOut ∧
      reconstruct gCircOut "A" ≠ reconstruct gCirc "A" := by
  constructor
  · rfl
  · decide

/-- C1 witness at a concrete input: strain A of the spec scenario graph. -/
theorem c1_witness :
    ∃ p q, lookupPath gABC "A" = some p ∧ lookupPath gABCOut "A" = some q ∧
      q.circular = p.circular ∧
      (p.circular = false → reconPath q = reconPath p) ∧
      (p.circular = true → ∃ k, reconPath q = (reconPath p).rotate k) :=
  @c1_sequence_fidelity gABC ["A", "B"] gABCOut "A" (by rfl) (by decide)

/-- C2: an empty strain set, or one containing a strain name absent from
the graph, makes marginalization fail with `InvalidStrainSet`; the
validation runs first, and the restriction and merge work sit on the
success branch only. -/
theorem c2_invalid_strain_set {g : Graph} {S : List String}
    (h : S = [] ∨ ∃ s ∈ S, s ∉ strainsOf g) :
    marginalize g S = Except.error MarginalizeError.InvalidStrainSet := by
  have hnv : ¬validStrainSet g S = true := by
    intro hv
    obtain ⟨hS, hsub⟩ := validStrainSet_iff.mp hv
    rcases h with rfl | ⟨s, hs, hnot⟩
    · exact hS rfl
    · exact hnot (hsub s hs)
  cases hb : validStrainSet g S with
  | false => exact marginalize_error hb
  | true => exact absurd hb hnv

/-- C2 witness: the strain name Z is absent from the scenario graph. -/
theorem c2_witness :
    (["Z"] = [] ∨ ∃ s ∈ ["Z"], s ∉ strainsOf gABC) ∧
      marginalize gABC ["Z"] = Except.error MarginalizeError.InvalidStrainSet :=
  have hh : ["Z"] = [] ∨ ∃ s ∈ ["Z"], s ∉ strainsOf gABC :=
    Or.inr ⟨"Z", by decide, by decide⟩
  ⟨hh, c2_invalid_strain_set hh⟩

/-! ### The single-strain case -/

theorem single_path_step {s : String} (g : Graph) (c : Cand) (hInv : Inv g)
    (hm : mergeableB g c.b1 c.s1 c.b2 c.s2 = true)
    (hP : (∃ p0 : Path, g.paths = [(s, p0)] ∧ p0.entries ≠ [] ∧
        (p0.entries.map (·.block)).Nodup) ∧
      ∀ b ∈ g.blocks, ∃ q ∈ g.paths, ∃ e ∈ q.2.entries, e.block = b.id) :
    (∃ p0 : Path, (mergeStep g c).paths = [(s, p0)] ∧ p0.entries ≠ [] ∧
        (p0.entries.map (·.block)).Nodup) ∧
      ∀ b ∈ (mergeStep g c).blocks, ∃ q ∈ (mergeStep g c).paths,
        ∃ e ∈ q.2.entries, e.block = b.id := by
  obtain ⟨⟨p0, hpaths, hpne, hpnd⟩, hAT⟩ := hP
  refine ⟨⟨mergePath (freshId g) c.b1 p0, ?_, mergePath_ne_nil hpne, ?_⟩,
    allTouched_mergeStep hInv hm hAT⟩
  · rw [mergeStep_paths, hpaths]
    rfl
  · show ((rewriteEntries (freshId g) c.b1
      (rotateIfWraps c.b1 p0).entries).map (·.block)).Nodup
    obtain ⟨hne2, _, hall⟩ := mergeableB_iff.mp hm
    have hq : (s, p0) ∈ g.paths := by rw [hpaths]; simp
    have hchain := chain_of_path hne2 (hall (s, p0) hq).1 (hall (s, p0) hq).2
    apply chain_rewrite_nodup hchain
    · by_cases hw : (p0.circular && lastIs c.b1 p0.entries) = true
      · simp only [rotateIfWraps, if_pos hw]
        exact rotR_blocks_nodup hpnd
      · simp only [rotateIfWraps, if_neg hw]
        exact hpnd
    · intro e he
      have hmem : e ∈ p0.entries := mem_rotateIfWraps.mp he
      have hid : e.block ∈ blockIds g := hInv.entriesWf (s, p0) hq e hmem
      have := lt_freshId hid
      omega

/-- C3 (amended): for a singleton strain set whose strain's path is
nonempty and visits no block twice, the output graph has exactly one path
consisting of exactly one block; that block reconstructs the strain's full
genome exactly when the path is linear and up to rotation when it is
circular, and the circular flag is preserved. -/
theorem c3_single_strain {g : Graph} {s : String} {out : Graph} {p : Path}
    (hInv : Inv g) (hout : marginalize g [s] = Except.ok out)
    (hp : lookupPath g s = some p) (hpne : p.entries ≠ [])
    (hpnd : (p.entries.map (·.block)).Nodup) :
    ∃ q : Path, out.paths = [(s, q)] ∧ q.entries.length = 1 ∧
      out.blocks.length = 1 ∧ q.circular = p.circular ∧
      (p.circular = false → reconPath q = reconPath p) ∧
      (p.circular = true → ∃ k, reconPath q = (reconPath p).rotate k) := by
  obtain ⟨hv, houteq⟩ := marginalize_out hout
  have hrpaths : (restrict g [s]).paths = [(s, p)] := by
    rw [restrict_paths]
    exact filter_singleton_aux g.paths hInv.namesNodup hp
  have hrInv : Inv (restrict g [s]) := restrict_inv [s] hInv
  have hloop := mergeLoop_preserves
    (fun g' => (∃ p0 : Path, g'.paths = [(s, p0)] ∧ p0.entries ≠ [] ∧
        (p0.entries.map (·.block)).Nodup) ∧
      ∀ b ∈ g'.blocks, ∃ q ∈ g'.paths, ∃ e ∈ q.2.entries, e.block = b.id)
    (fun g' c hi hmm hp' => single_path_step g' c hi hmm hp')
    (restrict g [s]).blocks.length (restrict g [s]) hrInv
    ⟨⟨p, hrpaths, hpne, hpnd⟩, allTouched_restrict g [s]⟩
  rw [← houteq] at hloop
  obtain ⟨hInvOut, ⟨q, hqpaths, hqne, hqnd⟩, hATout⟩ := hloop
  have hfix : findMergeable out = none := by
    rw [houteq]
    exact mergeLoop_fixed _ _ hrInv (Nat.le_refl _)
  have hq1 : q.entries.length = 1 := by
    rcases Nat.lt_or_ge q.entries.length 2 with hlt | hge
    · have h0 : q.entries.length ≠ 0 := fun h => hqne (List.length_eq_zero.mp h)
      omega
    · exfalso
      have he0 : q.entries[0]? = some q.entries[0] :=
        List.getElem?_eq_getElem (by omega)
      have he1 : q.entries[1]? = some q.entries[1] :=
        List.getElem?_eq_getElem (by omega)
      have hmcand := mergeable_of_single_adjacent hqpaths hqnd he0 he1
      exact findMergeable_complete hInvOut.entriesWf hmcand hfix
  obtain ⟨e, hqe⟩ := List.length_eq_one.mp hq1
  have hblen : out.blocks.length = 1 := by
    have hall : ∀ y ∈ blockIds out, y = e.block := by
      intro y hy
      obtain ⟨blk, hblk, hbid⟩ := List.mem_map.mp hy
      obtain ⟨qq, hqq, ee, hee, heeb⟩ := hATout blk hblk
      have hqq2 : qq = (s, q) := by
        rw [hqpaths] at hqq
        simpa using hqq
      subst hqq2
      rw [hqe] at hee
      have hee2 : ee = e := by simpa using hee
      rw [← hbid, ← heeb, hee2]
    have hle := nodup_all_eq_length_le hInvOut.idsNodup hall
    have hmemids : e.block ∈ blockIds out :=
      hInvOut.entriesWf (s, q) (by rw [hqpaths]; simp) e (by rw [hqe]; simp)
    have hpos : blockIds out ≠ [] := by
      intro hnil
      rw [hnil] at hmemids
      simp at hmemids
    have hlen1 : (blockIds out).length = out.blocks.length := by
      rw [blockIds, List.length_map]
    have hpos2 := List.length_pos.mpr hpos
    omega
  have hrel : GraphRel (restrict g [s])
      (mergeLoop (restrict g [s]).blocks.length (restrict g [s])) :=
    mergeLoop_rel _ _
  rw [← houteq] at hrel
  unfold GraphRel at hrel
  rw [hrpaths, hqpaths] at hrel
  have hpr : PathRel p q := by
    cases hrel with
    | cons hab _ => exact hab.2
  obtain ⟨hc, k, hk, hz⟩ := hpr
  refine ⟨q, hqpaths, hq1, hblen, hc, ?_, ?_⟩
  · intro hlin
    rw [hz hlin] at hk
    rw [hk, List.rotate_zero]
  · intro _
    exact ⟨k, hk⟩

/-- C3 counterexample: a single-strain path that visits block 1 twice with
different followers admits no universal adjacency, so nothing merges and
the output keeps three blocks, not one. -/
theorem c3_counterexample :
    marginalize gSelf ["A"] = Except.ok gSelf ∧ gSelf.blocks.length ≠ 1 := by
  constructor
  · rfl
  · decide

/-- C3 witness: the three-block single-strain linear graph collapses to a
single block reconstructing the genome exactly. -/
theorem c3_witness :
    ∃ q : Path, gLinOut.paths = [("A", q)] ∧ q.entries.length = 1 ∧
      gLinOut.blocks.length = 1 ∧ q.circular = gLinPath.circular ∧
      (gLinPath.circular = false → reconPath q = reconPath gLinPath) ∧
      (gLinPath.circular = true →
        ∃ k, reconPath q = (reconPath gLinPath).rotate k) :=
  @c3_single_strain gLin "A" gLinOut gLinPath
    ⟨by decide, by decide, by decide⟩ (by rfl) (by rfl) (by decide) (by decide)

/-! ### Minimality, monotonic reduction, idempotence -/

/-- C5: after marginalization no adjacency of the output graph satisfies
the universal-and-exclusive condition of §4.2 step 2 — the merge pass is a
fixed point. -/
theorem c5_minimality {g : Graph} {S : List String} {out : Graph}
    (hInv : Inv g) (hout : marginalize g S = Except.ok out) :
    NoMergeableAdj out := by
  obtain ⟨hv, houteq⟩ := marginalize_out hout
  have hrInv := restrict_inv S hInv
  have hfix : findMergeable out = none := by
    rw [houteq]
    exact mergeLoop_fixed _ _ hrInv (Nat.le_refl _)
  have hInvOut : Inv out := by
    rw [houteq]
    exact (mergeLoop_preserves (fun _ => True) (fun _ _ _ _ _ => trivial)
      _ _ hrInv trivial).1
  intro b1 s1 b2 s2
  cases hm : mergeableB out b1 s1 b2 s2 with
  | false => rfl
  | true => exact absurd hfix (findMergeable_complete hInvOut.entriesWf hm)

/-- C5 witness: the marginalized scenario graph has no mergeable
adjacency left. -/
theorem c5_witness : NoMergeableAdj gABCOut :=
  @c5_minimality gABC ["A", "B"] gABCOut
    ⟨by decide, by decide, by decide⟩ (by rfl)

theorem mergeLoop_lt {g : Graph} {c : Cand} (hInv : Inv g)
    (hf : findMergeable g = some c) :
    ∀ fuel, 1 ≤ fuel → (mergeLoop fuel g).blocks.length < g.blocks.length := by
  intro fuel hfuel
  obtain ⟨n, rfl⟩ : ∃ n, fuel = n + 1 := ⟨fuel - 1, by omega⟩
  rw [mergeLoop_succ_some n hf]
  have hstep := mergeStep_length hInv (findMergeable_sound hf)
  have hrec := mergeLoop_length_le n (mergeStep g c)
    (mergeStep_inv hInv (findMergeable_sound hf))
  omega

/-- C6: the output never has more blocks than the input has blocks touched
by the strain set, with equality exactly when no adjacency of the
restricted graph is universal-and-exclusive. -/
theorem c6_monotonic_reduction {g : Graph} {S : List String} {out : Graph}
    (hInv : Inv g) (hout : marginalize g S = Except.ok out) :
    out.blocks.length ≤ (touchedBlocks g S).length ∧
      (out.blocks.length = (touchedBlocks g S).length ↔
        NoMergeableAdj (restrict g S)) := by
  obtain ⟨hv, houteq⟩ := marginalize_out hout
  have hrInv := restrict_inv S hInv
  have hle : out.blocks.length ≤ (restrict g S).blocks.length := by
    rw [houteq]
    exact mergeLoop_length_le _ _ hrInv
  refine ⟨hle, ?_, ?_⟩
  · intro heq b1 s1 b2 s2
    cases hm : mergeableB (restrict g S) b1 s1 b2 s2 with
    | false => rfl
    | true =>
      exfalso
      have hne := findMergeable_complete hrInv.entriesWf hm
      cases hf : findMergeable (restrict g S) with
      | none => exact hne hf
      | some c =>
        have hstep := mergeStep_length hrInv (findMergeable_sound hf)
        have hlt := mergeLoop_lt hrInv hf (restrict g S).blocks.length
          (by omega)
        rw [← houteq] at hlt
        rw [restrict_blocks] at hlt
        omega
  · intro hno
    have hf : findMergeable (restrict g S) = none := by
      cases hf : findMergeable (restrict g S) with
      | none => rfl
      | some c =>
        have hs := findMergeable_sound hf
        rw [hno c.b1 c.s1 c.b2 c.s2] at hs
        simp at hs
    rw [houteq, mergeLoop_of_none hf, restrict_blocks]

/-- C6 witness at the spec scenario for strains A and B. -/
theorem c6_witness :
    gABCOut.blocks.length ≤ (touchedBlocks gABC ["A", "B"]).length ∧
      (gABCOut.blocks.length = (touchedBlocks gABC ["A", "B"]).length ↔
        NoMergeableAdj (restrict gABC ["A", "B"])) :=
  @c6_monotonic_reduction gABC ["A", "B"] gABCOut
    ⟨by decide, by decide, by decide⟩ (by rfl)

theorem strainsOf_restrict (g : Graph) (S : List String) :
    strainsOf (restrict g S) = (strainsOf g).filter fun t => S.contains t := by
  unfold strainsOf
  rw [restrict_paths, List.filter_map]
  rfl

/-- C4: marginalization is idempotent — marginalizing the output again
with the same strain set returns it unchanged (the identifier renaming of
the claim is the identity). -/
theorem c4_idempotent {g : Graph} {S : List String} {out : Graph}
    (hInv : Inv g) (hout : marginalize g S = Except.ok out) :
    marginalize out S = Except.ok out := by
  obtain ⟨hv, houteq⟩ := marginalize_out hout
  have hrInv := restrict_inv S hInv
  have hstr : strainsOf out = (strainsOf g).filter fun t => S.contains t := by
    rw [houteq, mergeLoop_strains, strainsOf_restrict]
  have hv2 : validStrainSet out S = true := by
    apply validStrainSet_iff.mpr
    obtain ⟨hS, hsub⟩ := validStrainSet_iff.mp hv
    refine ⟨hS, fun t ht => ?_⟩
    rw [hstr]
    exact List.mem_filter.mpr ⟨hsub t ht, by simpa using ht⟩
  have hAT : ∀ b ∈ out.blocks, ∃ q ∈ out.paths, ∃ e ∈ q.2.entries,
      e.block = b.id := by
    rw [houteq]
    exact (mergeLoop_preserves
      (fun g' => ∀ b ∈ g'.blocks, ∃ q ∈ g'.paths, ∃ e ∈ q.2.entries,
        e.block = b.id)
      (fun g' c hi hm hp => allTouched_mergeStep hi hm hp)
      _ _ hrInv (allTouched_restrict g S)).2
  have hnames : ∀ q ∈ out.paths, S.contains q.1 = true := by
    intro q hq
    have hmem : q.1 ∈ strainsOf out := List.mem_map.mpr ⟨q, hq, rfl⟩
    rw [hstr] at hmem
    exact (List.mem_filter.mp hmem).2
  have hrestr : restrict out S = out := by
    have hpaths2 : (out.paths.filter fun q => S.contains q.1) = out.paths :=
      List.filter_eq_self.mpr hnames
    have hblocks2 : touchedBlocks out S = out.blocks := by
      apply List.filter_eq_self.mpr
      intro b hb
      obtain ⟨q, hq, e, he, heb⟩ := hAT b hb
      refine List.any_eq_true.mpr ⟨q, hq, ?_⟩
      exact Bool.and_eq_true_iff.mpr ⟨hnames q hq, occursIn_iff.mpr ⟨e, he, heb⟩⟩
    show Graph.mk (touchedBlocks out S) (out.paths.filter fun q => S.contains q.1) = out
    rw [hblocks2, hpaths2]
  have hfix : findMergeable out = none := by
    rw [houteq]
    exact mergeLoop_fixed _ _ hrInv (Nat.le_refl _)
  rw [marginalize_ok hv2, hrestr, mergeLoop_of_none hfix]

/-- C4 witness: remarginalizing the marginalized scenario graph returns it
unchanged. -/
theorem c4_witness : marginalize gABCOut ["A", "B"] = Except.ok gABCOut :=
  @c4_idempotent gABC ["A", "B"] gABCOut
    ⟨by decide, by decide, by decide⟩ (by rfl)

/-! ### Frame, determinism and the driver stub -/

/-- C7: marginalization never mutates its input — in state-passing form
the graph handed back when the call returns, successfully or with an
error, is the input graph itself, and the returned value is exactly the
result of the pure transformation. -/
theorem c7_no_mutation (g : Graph) (S : List String) :
    (marginalizeCall g S).2 = g ∧ (marginalizeCall g S).1 = marginalize g S :=
  ⟨rfl, rfl⟩

/-- C8: the marginalization core is deterministic and consumes no
randomness — its result is a function of the graph and the strain set
only, so two runs agree and any two seeds give the same output. -/
theorem c8_deterministic (g : Graph) (S : List String)
    (seed1 seed2 : Option Nat) :
    marginalizeSeeded seed1 g S = marginalizeSeeded seed2 g S ∧
      marginalizeSeeded seed1 g S = marginalize g S :=
  ⟨rfl, rfl⟩

/-- C9: the driver returns `Ok(())` exactly when the JSON load succeeds,
the only error it can return is the one propagated from the load, and it
writes no file. -/
theorem c9_run_behavior (fs : String → Except String PangraphJson)
    (args : PangraphMarginalizeArgs) :
    ((marginalize_run fs args).1 = Except.ok () ↔
      ∃ j, fs args.input_aln = Except.ok j) ∧
      (∀ e, (marginalize_run fs args).1 = Except.error e ↔
        fs args.input_aln = Except.error e) ∧
      (marginalize_run fs args).2 = [] := by
  unfold marginalize_run
  cases hfs : fs args.input_aln with
  | ok j =>
    refine ⟨by simp, fun e => by simp, rfl⟩
  | error e0 =>
    refine ⟨by simp, fun e => by simp, rfl⟩

/-- C10: the driver's outcome depends only on the input path — the
strains, output path and seed arguments do not influence it. -/
theorem c10_args_irrelevant (fs : String → Except String PangraphJson)
    (a1 a2 : PangraphMarginalizeArgs) (h : a1.input_aln = a2.input_aln) :
    marginalize_run fs a1 = marginalize_run fs a2 := by
  unfold marginalize_run
  rw [h]

/-- C10 witness: two argument records agreeing only on the input path. -/
theorem c10_witness :
    marginalize_run (fun _ => Except.ok ⟨gABC⟩)
        ⟨"in.json", some "out.json", ["A"], some 1⟩ =
      marginalize_run (fun _ => Except.ok ⟨gABC⟩)
        ⟨"in.json", none, ["B", "C"], none⟩ :=
  c10_args_irrelevant _ _ _ rfl

end Pangraph
